import Mathlib

/-!
Verification of the site-mirroring crawler (site_scraper.py).

We shallowly embed the crawler's pure core logic over `List Char` strings:
URL normalization and parsing (CPython 3.11 urllib.parse semantics),
the scope check, the robots gate, the URL-to-local-path mapper (pathlib
semantics, SHA-1 query hashing), the HTML link/asset extractor (taking the
already-parsed element soup as input, BeautifulSoup itself being an external
collaborator), and the sequential frontier/worker state machine (one worker;
the single lock serializes all frontier mutations, so interleavings of the
guarded sections are equivalent to a sequential execution).

Python exceptions raised by url parsing (ValueError on invalid bracketed
hosts) are modelled by Option: none means the call raises.
-/

set_option maxRecDepth 10000

namespace SiteScraper

abbrev Str := List Char

def chars (s : String) : Str := s.data

/-! ### Generic list/string helpers (CPython string-method semantics) -/

/-- Python str.split(sep, 1) at the first occurrence of a character:
returns the parts before and after the first occurrence, if any. -/
def splitFirstChar (c : Char) : Str → Option (Str × Str)
  | [] => none
  | x :: xs =>
    if x = c then some ([], xs)
    else (splitFirstChar c xs).map (fun p => (x :: p.1, p.2))

/-- Split at the last occurrence of a character (for str.rfind-style logic). -/
def splitLastChar (c : Char) (l : Str) : Option (Str × Str) :=
  (splitFirstChar c l.reverse).map (fun p => (p.2.reverse, p.1.reverse))

/-- Python str.split(sep) with a character separator (full split). -/
def splitAllChar (c : Char) : Str → List Str
  | [] => [[]]
  | x :: xs =>
    if x = c then [] :: splitAllChar c xs
    else match splitAllChar c xs with
      | [] => [[x]]
      | p :: ps => (x :: p) :: ps

/-- Index of the last occurrence of a character (Python str.rfind), if any. -/
def rfindIdxChar (c : Char) (l : Str) : Option Nat :=
  (l.reverse.findIdx? (· = c)).map (fun j => l.length - 1 - j)

/-- Python str.lower (the strings we reason about are ASCII; Char.toLower
matches str.lower on ASCII). -/
def pyLower (s : Str) : Str := s.map Char.toLower

/-- Python str.isspace-style whitespace relevant to str.strip on URLs. -/
def pyIsSpace (c : Char) : Bool :=
  c = ' ' ∨ c = '\t' ∨ c = '\n' ∨ c = '\r' ∨ c = '\x0b' ∨ c = '\x0c' ∨
  c = '\x1c' ∨ c = '\x1d' ∨ c = '\x1e' ∨ c = '\x1f' ∨ c = '\x85' ∨ c = '\xa0'

def pyLstrip (l : Str) : Str := l.dropWhile pyIsSpace

def pyRstrip (l : Str) : Str := (l.reverse.dropWhile pyIsSpace).reverse

/-- Python str.strip(). -/
def pyStrip (l : Str) : Str := pyRstrip (pyLstrip l)

/-- Membership test used for the set-typed collections of the crawler:
Python set.add modelled as append-if-absent on a duplicate-free list. -/
def setInsert (l : List Str) (u : Str) : List Str :=
  if u ∈ l then l else l ++ [u]

def setInsertP (l : List (List Str)) (u : List Str) : List (List Str) :=
  if u ∈ l then l else l ++ [u]

/-! ### urllib.parse embedding (CPython 3.11 semantics)

All functions below are transcribed from CPython 3.11 urllib/parse.py and
ipaddress.py.  A raised ValueError is modelled by an Option none result. -/

def isAsciiDigit (c : Char) : Bool := decide ('0' ≤ c ∧ c ≤ '9')

def isHexDigitPy (c : Char) : Bool :=
  isAsciiDigit c || decide ('a' ≤ c ∧ c ≤ 'f') || decide ('A' ≤ c ∧ c ≤ 'F')

def strToNatDec (s : Str) : Nat := s.foldl (fun a c => a * 10 + (c.toNat - 48)) 0

/-- ipaddress.IPv4Address._parse_octet validity (CPython 3.11). -/
def validOctet (s : Str) : Bool :=
  !s.isEmpty && s.all isAsciiDigit && decide (s.length ≤ 3) &&
  !(decide (s.length ≠ 1) && decide (s.head? = some '0')) &&
  decide (strToNatDec s ≤ 255)

/-- ipaddress.IPv4Address textual validity. -/
def isIPv4Text (s : Str) : Bool :=
  let os := splitAllChar '.' s
  decide (os.length = 4) && os.all validOctet

/-- ipaddress.IPv6Address._parse_hextet validity. -/
def validHextet (s : Str) : Bool :=
  !s.isEmpty && decide (s.length ≤ 4) && s.all isHexDigitPy

/-- Hextet-count bookkeeping of ipaddress.IPv6Address._ip_int_from_string,
after the optional IPv4 tail has been replaced by two hextets. -/
def ipv6PartsOk (parts : List Str) : Bool :=
  if parts.length > 9 then false else
  let interior := (parts.drop 1).dropLast
  if 2 ≤ interior.countP (fun p => p.isEmpty) then false else
  match interior.findIdx? (fun p => p.isEmpty) with
  | some j =>
    let skipIdx := j + 1
    let partsHi0 := skipIdx
    let partsLo0 := parts.length - skipIdx - 1
    let headEmpty := (parts.headD []).isEmpty
    let lastEmpty := (parts.getLastD []).isEmpty
    let partsHi := if headEmpty then partsHi0 - 1 else partsHi0
    let partsLo := if lastEmpty then partsLo0 - 1 else partsLo0
    (!headEmpty || decide (partsHi0 = 1)) &&
    (!lastEmpty || decide (partsLo0 = 1)) &&
    decide (partsHi + partsLo ≤ 7) &&
    (parts.take partsHi).all validHextet &&
    (parts.drop (parts.length - partsLo)).all validHextet
  | none =>
    decide (parts.length = 8) && !(parts.headD []).isEmpty &&
    !(parts.getLastD []).isEmpty && parts.all validHextet

/-- ipaddress.IPv6Address textual validity without a zone id. -/
def isIPv6NoZone (s : Str) : Bool :=
  if s.isEmpty then false else
  let parts := splitAllChar ':' s
  if parts.length < 3 then false else
  let lastP := parts.getLastD []
  if '.' ∈ lastP then
    if isIPv4Text lastP then ipv6PartsOk (parts.dropLast ++ [['0'], ['0']])
    else false
  else ipv6PartsOk parts

/-- ipaddress.IPv6Address textual validity (optionally scoped with a zone). -/
def isIPv6Text (s : Str) : Bool :=
  match splitFirstChar '%' s with
  | some (a, z) => !z.isEmpty && decide ('%' ∉ z) && isIPv6NoZone a
  | none => isIPv6NoZone s

/-- urllib.parse._check_bracketed_host: true when no ValueError is raised. -/
def bracketedHostOk (h : Str) : Bool :=
  match h with
  | 'v' :: rest =>
    match splitFirstChar '.' rest with
    | some (hx, tl) => !hx.isEmpty && hx.all isHexDigitPy && !tl.isEmpty
    | none => false
  | _ => !isIPv4Text h && isIPv6Text h

/-- Characters valid in scheme names (urllib.parse.scheme_chars). -/
def schemeChar (c : Char) : Bool :=
  c.isAlpha || c.isDigit || decide (c = '+') || decide (c = '-') || decide (c = '.')

/-- WHATWG C0-control-or-space class used by urlsplit's lstrip. -/
def isC0OrSpace (c : Char) : Bool := decide (c.toNat ≤ 0x20)

/-- urllib.parse._UNSAFE_URL_BYTES_TO_REMOVE removal (tab, CR, LF). -/
def removeUnsafeBytes (u : Str) : Str :=
  u.filter (fun c => !(decide (c = '\t') || decide (c = '\r') || decide (c = '\n')))

structure SplitResult where
  scheme : Str
  netloc : Str
  path : Str
  query : Str
  fragment : Str
deriving DecidableEq, Repr

/-- Scheme extraction step of urlsplit: i = url.find(m); requires i > 0, an
ASCII-alphabetic first character and scheme characters throughout, else the
default scheme is kept and the url left whole. -/
def schemeOk (a : Str) : Bool :=
  !a.isEmpty &&
  (match a.head? with
   | some c => decide (c.toNat ≤ 127) && c.isAlpha
   | none => false) &&
  a.all schemeChar

def schemeSplitFn (dflt : Str) (url : Str) : Str × Str :=
  match splitFirstChar ':' url with
  | some (a, b) => if schemeOk a then (pyLower a, b) else (dflt, url)
  | none => (dflt, url)

def netlocDelim (c : Char) : Bool := decide (c = '/') || decide (c = '?') || decide (c = '#')

/-- urllib.parse._splitnetloc(url, 2), applied to url.drop 2. -/
def splitnetloc2 (rest : Str) : Str × Str :=
  (rest.takeWhile (fun c => !netlocDelim c), rest.dropWhile (fun c => !netlocDelim c))

/-- netloc.partition('[')[2].partition(']')[0] from urlsplit. -/
def bracketedOf (nl : Str) : Str :=
  match splitFirstChar '[' nl with
  | some (_, after) =>
    (match splitFirstChar ']' after with
     | some (b, _) => b
     | none => after)
  | none => []

/-- Bracket validation of the netloc (can raise ValueError, i.e. none):
unbalanced brackets raise, and a balanced bracketed host must pass
_check_bracketed_host. -/
def netlocBracketCheck (nl rest2 : Str) : Option (Str × Str) :=
  if ('[' ∈ nl ∧ ']' ∉ nl) ∨ (']' ∈ nl ∧ '[' ∉ nl) then none
  else if ('[' ∈ nl ∧ ']' ∈ nl) ∧ !bracketedHostOk (bracketedOf nl) then none
  else some (nl, rest2)

/-- Netloc step of urlsplit, including the bracket validation that can raise
ValueError (modelled as none). -/
def netlocSplitFn (url : Str) : Option (Str × Str) :=
  if url.take 2 = ['/', '/'] then
    let p := splitnetloc2 (url.drop 2)
    netlocBracketCheck p.1 p.2
  else some ([], url)

/-- Fragment or query split step: url.split(c, 1) when c is present. -/
def tailSplitFn (c : Char) (url : Str) : Str × Str :=
  match splitFirstChar c url with
  | some (a, b) => (a, b)
  | none => (url, [])

/-- urlsplit on an already lstripped-and-cleaned url (the stages after byte
removal).  The NFKC _checknetloc test, which can only fire on non-ASCII
netlocs containing unicode-compatibility characters, is not modelled. -/
def urlsplitCore (dflt : Str) (url : Str) : Option SplitResult :=
  let su := schemeSplitFn dflt url
  match netlocSplitFn su.2 with
  | none => none
  | some (nl, u1) =>
    let fq := tailSplitFn '#' u1
    let pq := tailSplitFn '?' fq.1
    some ⟨su.1, nl, pq.1, pq.2, fq.2⟩

/-- urllib.parse.urlsplit (CPython 3.11), with a default-scheme argument. -/
def urlsplitD (url : Str) (dflt : Str) : Option SplitResult :=
  urlsplitCore (removeUnsafeBytes (pyStrip dflt))
    (removeUnsafeBytes (url.dropWhile isC0OrSpace))

def urlsplitE (url : Str) : Option SplitResult := urlsplitD url []

/-- urllib.parse.urlunsplit (CPython 3.11). -/
def usesNetloc : List Str :=
  [chars "", chars "ftp", chars "http", chars "gopher", chars "nntp",
   chars "telnet", chars "imap", chars "wais", chars "file", chars "mms",
   chars "https", chars "shttp", chars "snews", chars "prospero", chars "rtsp",
   chars "rtsps", chars "rtspu", chars "rsync", chars "svn", chars "svn+ssh",
   chars "sftp", chars "nfs", chars "git", chars "git+ssh", chars "ws",
   chars "wss"]

def usesRelative : List Str :=
  [chars "", chars "ftp", chars "http", chars "gopher", chars "nntp",
   chars "imap", chars "wais", chars "file", chars "https", chars "shttp",
   chars "mms", chars "prospero", chars "rtsp", chars "rtsps", chars "rtspu",
   chars "sftp", chars "svn", chars "svn+ssh", chars "ws", chars "wss"]

def usesParams : List Str :=
  [chars "", chars "ftp", chars "hdl", chars "prospero", chars "http",
   chars "imap", chars "https", chars "shttp", chars "rtsp", chars "rtsps",
   chars "rtspu", chars "sip", chars "sips", chars "mms", chars "sftp",
   chars "tel"]

def urlunsplit (r : SplitResult) : Str :=
  let url := r.path
  let url :=
    if !r.netloc.isEmpty ∨
       (!r.scheme.isEmpty ∧ r.scheme ∈ usesNetloc ∧ url.take 2 ≠ ['/', '/']) then
      let url := if !url.isEmpty ∧ url.take 1 ≠ ['/'] then '/' :: url else url
      '/' :: '/' :: (r.netloc ++ url)
    else url
  let url := if !r.scheme.isEmpty then r.scheme ++ ':' :: url else url
  let url := if !r.query.isEmpty then url ++ '?' :: r.query else url
  if !r.fragment.isEmpty then url ++ '#' :: r.fragment else url

structure ParseResult where
  scheme : Str
  netloc : Str
  path : Str
  params : Str
  query : Str
  fragment : Str
deriving DecidableEq, Repr

/-- urllib.parse._splitparams.  In the source it is only reached when a
semicolon is present in the url. -/
def splitparams (url : Str) : Str × Str :=
  if '/' ∈ url then
    match splitLastChar '/' url with
    | some (a, b) =>
      match splitFirstChar ';' b with
      | some (b1, b2) => (a ++ '/' :: b1, b2)
      | none => (url, [])
    | none => (url, [])
  else
    match splitFirstChar ';' url with
    | some (u1, u2) => (u1, u2)
    | none => (url, [])

/-- urllib.parse.urlparse with a default scheme. -/
def urlparseD (url : Str) (dflt : Str) : Option ParseResult :=
  (urlsplitD url dflt).map fun r =>
    if r.scheme ∈ usesParams ∧ ';' ∈ r.path then
      let p := splitparams r.path
      ⟨r.scheme, r.netloc, p.1, p.2, r.query, r.fragment⟩
    else ⟨r.scheme, r.netloc, r.path, [], r.query, r.fragment⟩

def urlparseE (url : Str) : Option ParseResult := urlparseD url []

/-- urllib.parse.urlunparse. -/
def urlunparse (r : ParseResult) : Str :=
  let url := if !r.params.isEmpty then r.path ++ ';' :: r.params else r.path
  urlunsplit ⟨r.scheme, r.netloc, url, r.query, r.fragment⟩

/-- urllib.parse.urldefrag (the defragmented url only; the crawler discards
the fragment component). -/
def urldefragE (url : Str) : Option Str :=
  if '#' ∈ url then
    (urlparseE url).map fun r => urlunparse { r with fragment := [] }
  else some url

/-- Helper for the slice assignment segments[1:-1] = filter(None, ...):
drops empty elements, but keeps the final element whatever it is. -/
def keepLastFilterEmpties : List Str → List Str
  | [] => []
  | [y] => [y]
  | y :: ys => if y.isEmpty then keepLastFilterEmpties ys else y :: keepLastFilterEmpties ys

/-- The slice assignment segments[1:-1] = filter(None, segments[1:-1]) from
urljoin: the first and last elements are kept, interior empties dropped. -/
def filterMiddleEmpties : List Str → List Str
  | [] => []
  | x :: xs => x :: keepLastFilterEmpties xs

/-- urllib.parse.urljoin (CPython 3.11). -/
def urljoinE (base url : Str) : Option Str :=
  if base.isEmpty then some url
  else if url.isEmpty then some base
  else
    match urlparseD base [] with
    | none => none
    | some b =>
      match urlparseD url b.scheme with
      | none => none
      | some r =>
        if r.scheme ≠ b.scheme ∨ r.scheme ∉ usesRelative then some url
        else
          let netloc0 := if r.scheme ∈ usesNetloc then
              (if !r.netloc.isEmpty then none else some b.netloc)
            else some r.netloc
          match netloc0 with
          | none => some (urlunparse r)
          | some netloc =>
            if r.path.isEmpty ∧ r.params.isEmpty then
              some (urlunparse ⟨r.scheme, netloc, b.path, b.params,
                (if r.query.isEmpty then b.query else r.query), r.fragment⟩)
            else
              let baseParts0 := splitAllChar '/' b.path
              let baseParts :=
                if baseParts0.getLastD [] ≠ [] then baseParts0.dropLast else baseParts0
              let segments :=
                if r.path.take 1 = ['/'] then splitAllChar '/' r.path
                else filterMiddleEmpties (baseParts ++ splitAllChar '/' r.path)
              let resolved := segments.foldl (fun acc seg =>
                if seg = ['.', '.'] then acc.dropLast
                else if seg = ['.'] then acc
                else acc ++ [seg]) ([] : List Str)
              let resolved :=
                if segments.getLastD [] = ['.'] ∨ segments.getLastD [] = ['.', '.']
                then resolved ++ [[]] else resolved
              let joined := List.intercalate ['/'] resolved
              some (urlunparse ⟨r.scheme, netloc,
                (if joined.isEmpty then ['/'] else joined), r.params, r.query,
                r.fragment⟩)

/-- The hostname property of a parse result (CPython _NetlocResultMixinBase):
strip userinfo and port from the netloc, lowercase (preserving any IPv6 zone
after a percent sign); empty hostname is None. -/
def hostnameOf (netloc : Str) : Option Str :=
  let hostinfo := match splitLastChar '@' netloc with
    | some (_, after) => after
    | none => netloc
  let host :=
    if '[' ∈ hostinfo then
      match splitFirstChar '[' hostinfo with
      | some (_, bracketed) =>
        (match splitFirstChar ']' bracketed with
         | some (h, _) => h
         | none => bracketed)
      | none => []
    else
      match splitFirstChar ':' hostinfo with
      | some (h, _) => h
      | none => hostinfo
  if host.isEmpty then none
  else
    match splitFirstChar '%' host with
    | some (h, zone) => some (pyLower h ++ '%' :: zone)
    | none => some (pyLower host)

/-! ### hashlib.sha1 (used by SiteMirror._hash8)

A byte-level SHA-1 over Nat arithmetic with explicit reduction mod 2^32. -/

def utf8Char (c : Char) : List Nat :=
  let n := c.toNat
  if n < 0x80 then [n]
  else if n < 0x800 then [0xC0 + n / 0x40, 0x80 + n % 0x40]
  else if n < 0x10000 then
    [0xE0 + n / 0x1000, 0x80 + (n / 0x40) % 0x40, 0x80 + n % 0x40]
  else
    [0xF0 + n / 0x40000, 0x80 + (n / 0x1000) % 0x40, 0x80 + (n / 0x40) % 0x40,
     0x80 + n % 0x40]

/-- Python str.encode("utf-8", "ignore"); every Char is a unicode scalar so
nothing is ever dropped. -/
def utf8Encode (s : Str) : List Nat := s.flatMap utf8Char

def rotl32 (b n : Nat) : Nat := ((n <<< b) ||| (n >>> (32 - b))) % 4294967296

/-- Big-endian 8-byte encoding of the bit length. -/
def be64 (n : Nat) : List Nat :=
  [(n >>> 56) % 256, (n >>> 48) % 256, (n >>> 40) % 256, (n >>> 32) % 256,
   (n >>> 24) % 256, (n >>> 16) % 256, (n >>> 8) % 256, n % 256]

/-- SHA-1 message padding. -/
def sha1Pad (msg : List Nat) : List Nat :=
  let padZeros := (120 - ((msg.length + 1) % 64)) % 64
  msg ++ [0x80] ++ List.replicate padZeros 0 ++ be64 (8 * msg.length)

/-- Split into 64-byte chunks (fuel-driven for structural recursion). -/
def chunk64 : Nat → List Nat → List (List Nat)
  | 0, _ => []
  | _ + 1, [] => []
  | fuel + 1, bs => bs.take 64 :: chunk64 fuel (bs.drop 64)

/-- Assemble big-endian 32-bit words from bytes. -/
def words32 : List Nat → List Nat
  | b0 :: b1 :: b2 :: b3 :: rest =>
    (((b0 * 256 + b1) * 256 + b2) * 256 + b3) :: words32 rest
  | _ => []

/-- Extend the 16 message words to 80. -/
def sha1Schedule (ws : List Nat) : List Nat :=
  (List.range 64).foldl
    (fun w i =>
      let v := rotl32 1 ((w.getD (i + 13) 0) ^^^ (w.getD (i + 8) 0) ^^^
                        (w.getD (i + 2) 0) ^^^ (w.getD i 0))
      w ++ [v]) ws

def sha1F (i b c d : Nat) : Nat :=
  if i < 20 then (b &&& c) ||| ((b ^^^ 0xFFFFFFFF) &&& d)
  else if i < 40 then b ^^^ c ^^^ d
  else if i < 60 then (b &&& c) ||| (b &&& d) ||| (c &&& d)
  else b ^^^ c ^^^ d

def sha1K (i : Nat) : Nat :=
  if i < 20 then 0x5A827999
  else if i < 40 then 0x6ED9EBA1
  else if i < 60 then 0x8F1BBCDC
  else 0xCA62C1D6

/-- Process one 64-byte chunk into the running state (h0,h1,h2,h3,h4). -/
def sha1Chunk (h : Nat × Nat × Nat × Nat × Nat) (bytes : List Nat) :
    Nat × Nat × Nat × Nat × Nat :=
  let w := sha1Schedule (words32 bytes)
  let s := (List.range 80).foldl
    (fun (st : Nat × Nat × Nat × Nat × Nat) i =>
      let (a, b, c, d, e) := st
      let temp := (rotl32 5 a + sha1F i b c d + e + sha1K i + w.getD i 0) % 4294967296
      (temp, a, rotl32 30 b, c, d))
    (h.1, h.2.1, h.2.2.1, h.2.2.2.1, h.2.2.2.2)
  ((h.1 + s.1) % 4294967296,
   (h.2.1 + s.2.1) % 4294967296,
   (h.2.2.1 + s.2.2.1) % 4294967296,
   (h.2.2.2.1 + s.2.2.2.1) % 4294967296,
   (h.2.2.2.2 + s.2.2.2.2) % 4294967296)

/-- SHA-1 digest of a byte string as a 160-bit number. -/
def sha1Nat (msg : List Nat) : Nat :=
  let padded := sha1Pad msg
  let h := (chunk64 (padded.length / 64 + 1) padded).foldl sha1Chunk
    (0x67452301, 0xEFCDAB89, 0x98BADCFE, 0x10325476, 0xC3D2E1F0)
  (((h.1 * 4294967296 + h.2.1) * 4294967296 + h.2.2.1) * 4294967296 +
    h.2.2.2.1) * 4294967296 + h.2.2.2.2

def hexCharOf (n : Nat) : Char :=
  if n < 10 then Char.ofNat (48 + n) else Char.ofNat (87 + n)

/-- hexdigest(): 40 lowercase hex characters, most significant first. -/
def sha1Hex (msg : List Nat) : Str :=
  (List.range 40).map (fun i => hexCharOf ((sha1Nat msg >>> (4 * (39 - i))) % 16))

/-! ### pathlib.PurePosixPath model

A relative pure path is its list of parts.  Joining with a string operand
splits it on the separator and drops empty and single-dot segments, as
pathlib's parser does.  The crawler never joins an absolute operand (the URL
path is lstripped of slashes first), so anchors need not be modelled. -/

def pathJoinStr (parts : List Str) (s : Str) : List Str :=
  parts ++ (splitAllChar '/' s).filter (fun seg => !seg.isEmpty && seg ≠ ['.'])

def pathName (parts : List Str) : Str := parts.getLastD []

/-- PurePath.suffix (CPython): the last dot-suffix of the final component,
empty when the dot is leading or trailing. -/
def pathSuffix (parts : List Str) : Str :=
  let name := pathName parts
  match rfindIdxChar '.' name with
  | some i => if 0 < i ∧ i < name.length - 1 then name.drop i else []
  | none => []

/-- PurePath.stem: the final component without its last suffix. -/
def pathStem (parts : List Str) : Str :=
  let name := pathName parts
  match rfindIdxChar '.' name with
  | some i => if 0 < i ∧ i < name.length - 1 then name.take i else name
  | none => name

/-- PurePath.suffixes: all dot-suffixes of the final component. -/
def pathSuffixes (parts : List Str) : List Str :=
  let name := pathName parts
  if name.getLast? = some '.' then [] else
  ((splitAllChar '.' (name.dropWhile (· = '.'))).drop 1).map (fun s => '.' :: s)

/-- PurePath.with_suffix (called by the crawler only with ".html"); raises
ValueError (none) when the path has an empty name. -/
def withSuffixE (parts : List Str) (sfx : Str) : Option (List Str) :=
  let name := pathName parts
  if name.isEmpty then none
  else
    let old := pathSuffix parts
    let newName :=
      if old.isEmpty then name ++ sfx else name.take (name.length - old.length) ++ sfx
    some (parts.dropLast ++ [newName])

/-! ### SiteMirror utility methods (site_scraper.py) -/

/-- SiteMirror._normalize_url: strip whitespace, remove the fragment. -/
def normalize_url (u : Str) : Option Str := urldefragE (pyStrip u)

/-- SiteMirror._is_http. -/
def is_httpE (u : Str) : Option Bool :=
  (urlparseE u).map fun p =>
    p.scheme = chars "http" ∨ p.scheme = chars "https"

/-- SiteMirror._same_domain, relative to the parsed start URL and the
include_subdomains flag.  The netloc comparison is exact; the subdomain
branch compares lowercased hostnames with endswith. -/
def same_domainE (base : ParseResult) (includeSubdomains : Bool) (u : Str) :
    Option Bool :=
  (urlparseE u).map fun p =>
    if p.netloc = base.netloc then true
    else if includeSubdomains then
      match hostnameOf p.netloc, hostnameOf base.netloc with
      | some ph, some bh => List.isSuffixOf ('.' :: bh) ph
      | _, _ => false
    else false

/-- A robots policy as loaded by robotparser: its can_fetch evaluation,
which may itself raise (Except.error). -/
def RobotsCanFetch := Str → Str → Except Unit Bool

/-- SiteMirror._init_robots: a failed read leaves self.rp = None. -/
def init_robots (load : Except Unit RobotsCanFetch) : Option RobotsCanFetch :=
  match load with
  | .ok p => some p
  | .error _ => none

/-- SiteMirror._allowed_by_robots. -/
def allowed_by_robots (ignoreRobots : Bool) (rp : Option RobotsCanFetch)
    (userAgent url : Str) : Bool :=
  if ignoreRobots then true
  else match rp with
    | none => true
    | some canFetch =>
      match canFetch userAgent url with
      | .error _ => true
      | .ok b => b

/-- SiteMirror._hash8: first 8 hex characters of the SHA-1 of the utf-8
encoded string. -/
def hash8 (s : Str) : Str := (sha1Hex (utf8Encode s)).take 8

/-- HTML content types (HTML_CT), via str.startswith. -/
def isHtmlCt (ct : Str) : Bool :=
  (chars "text/html").isPrefixOf ct || (chars "application/xhtml+xml").isPrefixOf ct

/-- CSS content types (CSS_CT). -/
def isCssCt (ct : Str) : Bool := (chars "text/css").isPrefixOf ct

/-- Content type normalization used by save_response and worker:
(header or "").split(";")[0].strip().lower(). -/
def ctOf (header : Str) : Str :=
  pyLower (pyStrip ((tailSplitFn ';' header).1))

/-- Lines 182-191 of url_to_local_path: out_dir / netloc / lstripped path,
with an index filename when the path is empty or ends in a slash. -/
def mapPathBase (outDir : List Str) (netloc path ct : Str) : List Str :=
  let base := pathJoinStr outDir netloc
  if path.isEmpty ∨ path.getLast? = some '/' then
    let filename :=
      if !ct.isEmpty && isHtmlCt ct then chars "index.html" else chars "index"
    pathJoinStr (pathJoinStr base (path.dropWhile (· = '/'))) filename
  else pathJoinStr base (path.dropWhile (· = '/'))

/-- Lines 193-199 of url_to_local_path: append the query hash to the
filename stem when a query string is present. -/
def mapPathQuery (loc : List Str) (query : Str) : List Str :=
  if !query.isEmpty then
    let stem0 := pathStem loc
    let stem := if stem0.isEmpty then chars "file" else stem0
    let suffix := (pathSuffixes loc).flatten
    loc.dropLast ++ [stem ++ chars "__q=" ++ hash8 query ++ suffix]
  else loc

/-- SiteMirror.url_to_local_path.  None models a propagating ValueError. -/
def url_to_local_path (outDir : List Str) (url : Str) (ct : Str) :
    Option (List Str) :=
  match urlparseE url with
  | none => none
  | some p =>
    let loc := mapPathQuery (mapPathBase outDir p.netloc p.path ct) p.query
    if (pathSuffix loc).isEmpty ∧ !ct.isEmpty ∧ isHtmlCt ct then
      withSuffixE loc (chars ".html")
    else some loc

/-- First 8 hex digits of the SHA-1 digest as a number (the value the 8
hash characters denote). -/
def hash8Nat (s : Str) : Nat := sha1Nat (utf8Encode s) >>> 128

/-- hash8Nat packaged into the finite type of 32-bit values. -/
def hash8Fin (s : Str) : Fin 4294967296 :=
  ⟨hash8Nat s % 4294967296, Nat.mod_lt _ (by decide)⟩

/-- The 8 hex characters of a 32-bit value, most significant first. -/
def hexOf8 (n : Nat) : Str :=
  (List.range 8).map (fun i => hexCharOf ((n >>> (4 * (7 - i))) % 16))

/-! ### Content extractor (SiteMirror.extract_links_and_assets)

BeautifulSoup is an external collaborator: the extractor is embedded over the
already-parsed element soup (document-ordered tags with their attributes; rel
is BeautifulSoup's multi-valued attribute).  A propagating exception from url
handling inside a loop is modelled by none. -/

structure Element where
  tag : Str
  attrs : List (Str × Str)
  rel : Option (List Str)

def Element.getAttr (el : Element) (a : Str) : Option Str :=
  (el.attrs.find? (fun p => p.1 = a)).map Prod.snd

/-- ASSET_ATTRS (a Python set literal; the iteration order of a set is
arbitrary, so we fix the textual order — all claims are order-insensitive). -/
def ASSET_ATTRS : List (Str × Str) :=
  [(chars "img", chars "src"), (chars "img", chars "srcset"),
   (chars "script", chars "src"), (chars "link", chars "href"),
   (chars "source", chars "src"), (chars "video", chars "src"),
   (chars "audio", chars "src"), (chars "track", chars "src"),
   (chars "iframe", chars "src"), (chars "embed", chars "src"),
   (chars "object", chars "data")]

def LINK_RELS_AS_ASSETS : List Str :=
  [chars "stylesheet", chars "icon", chars "shortcut icon",
   chars "apple-touch-icon", chars "preload", chars "prefetch"]

/-- The asset-extension endswith tuple on line 255 of the source. -/
def assetExts : List Str :=
  [chars ".css", chars ".ico", chars ".png", chars ".svg", chars ".webmanifest"]

/-- The anchor loop body: collects candidate pages, one a-element at a time. -/
def addPage (base : ParseResult) (incSub : Bool) (baseUrl : Str)
    (acc : List Str) (el : Element) : Option (List Str) :=
  if el.tag = chars "a" then
    match el.getAttr (chars "href") with
    | none => some acc
    | some href =>
      if href.isEmpty then some acc
      else
        match urljoinE baseUrl href with
        | none => none
        | some u0 =>
          match normalize_url u0 with
          | none => none
          | some u =>
            match is_httpE u with
            | none => none
            | some h =>
              if !h then some acc
              else
                match same_domainE base incSub u with
                | none => none
                | some sd => some (if sd then setInsert acc u else acc)
  else some acc

def pagesLoop (base : ParseResult) (incSub : Bool) (baseUrl : Str) :
    List Element → List Str → Option (List Str)
  | [], acc => some acc
  | el :: rest, acc =>
    match addPage base incSub baseUrl acc el with
    | none => none
    | some acc2 => pagesLoop base incSub baseUrl rest acc2

/-- The srcset splitting: comma-separated entries, leading token of each. -/
def srcsetCandidates (val : Str) : List Str :=
  (splitAllChar ',' val).filterMap fun part =>
    let u := (tailSplitFn ' ' (pyStrip part)).1
    if u.isEmpty then none else some u

/-- The link-rel skip condition (line 253-257 of the source). -/
def linkRelSkip (el : Element) (candidate : Str) : Bool :=
  let rel := pyLower (List.intercalate [' '] (el.rel.getD []))
  !rel.isEmpty && decide (rel ∉ LINK_RELS_AS_ASSETS) &&
  !(assetExts.any (fun e => e.isSuffixOf (pyLower candidate)))

/-- One asset candidate (the innermost loop body). -/
def addAsset (base : ParseResult) (incSub : Bool) (baseUrl : Str) (el : Element)
    (acc : List Str) (candidate : Str) : Option (List Str) :=
  match urljoinE baseUrl candidate with
  | none => none
  | some u0 =>
    match normalize_url u0 with
    | none => none
    | some u =>
      match is_httpE u with
      | none => none
      | some h =>
        if !h then some acc
        else if el.tag = chars "link" ∧ linkRelSkip el candidate then some acc
        else
          match same_domainE base incSub u with
          | none => none
          | some sd => some (if sd then setInsert acc u else acc)

def candLoop (base : ParseResult) (incSub : Bool) (baseUrl : Str) (el : Element) :
    List Str → List Str → Option (List Str)
  | [], acc => some acc
  | c :: cs, acc =>
    match addAsset base incSub baseUrl el acc c with
    | none => none
    | some acc2 => candLoop base incSub baseUrl el cs acc2

/-- One element of the inner tag/attr asset loop. -/
def assetElemStep (base : ParseResult) (incSub : Bool) (baseUrl : Str)
    (ta : Str × Str) (el : Element) (acc : List Str) : Option (List Str) :=
  if el.tag = ta.1 then
    match el.getAttr ta.2 with
    | none => some acc
    | some val =>
      if val.isEmpty then some acc
      else
        let candidates :=
          if ta.2 = chars "srcset" then srcsetCandidates val else [val]
        candLoop base incSub baseUrl el candidates acc
  else some acc

def assetElemLoop (base : ParseResult) (incSub : Bool) (baseUrl : Str)
    (ta : Str × Str) : List Element → List Str → Option (List Str)
  | [], acc => some acc
  | el :: rest, acc =>
    match assetElemStep base incSub baseUrl ta el acc with
    | none => none
    | some acc2 => assetElemLoop base incSub baseUrl ta rest acc2

def assetsLoop (base : ParseResult) (incSub : Bool) (baseUrl : Str)
    (soup : List Element) : List (Str × Str) → List Str → Option (List Str)
  | [], acc => some acc
  | ta :: tas, acc =>
    match assetElemLoop base incSub baseUrl ta soup acc with
    | none => none
    | some acc2 => assetsLoop base incSub baseUrl soup tas acc2

/-- SiteMirror.extract_links_and_assets: (page_urls, asset_urls). -/
def extract_links_and_assets (base : ParseResult) (incSub : Bool)
    (baseUrl : Str) (soup : List Element) : Option (List Str × List Str) :=
  match pagesLoop base incSub baseUrl soup [] with
  | none => none
  | some pages =>
    match assetsLoop base incSub baseUrl soup ASSET_ATTRS [] with
    | none => none
    | some assets => some (pages, assets)

/-- SiteMirror.extract_css_urls over the url(...) regex matches (the regular
expression engine is an external collaborator; the input is the list of
group-2 capture strings in match order). -/
def extract_css_urls (base : ParseResult) (incSub : Bool) (baseUrl : Str) :
    List Str → List Str → Option (List Str)
  | [], acc => some acc
  | m :: ms, acc =>
    match urljoinE baseUrl (pyStrip m) with
    | none => none
    | some u0 =>
      match normalize_url u0 with
      | none => none
      | some u =>
        match is_httpE u with
        | none => none
        | some h =>
          if !h then extract_css_urls base incSub baseUrl ms acc
          else
            match same_domainE base incSub u with
            | none => none
            | some sd =>
              extract_css_urls base incSub baseUrl ms
                (if sd then setInsert acc u else acc)

/-! ### Frontier, worker and crawl loop

The lock serializes every touch of seen_urls/saved_urls/page_count, and with
the queue's own thread safety the observable state evolution of the crawl is
that of this sequential machine.  The puts/processed history fields record
every q.put and every dequeue for stating the dedup invariant; crashed=true
models a worker thread dying on a propagating exception. -/

structure Response where
  status : Nat
  contentTypeHeader : Str
  soup : List Element
  cssRefs : List Str
  saveOk : Bool

structure Config where
  outDir : List Str
  base : ParseResult
  includeSubdomains : Bool
  maxPages : Nat
  ignoreRobots : Bool
  robots : Option RobotsCanFetch
  userAgent : Str
  startUrl : Str

/-- SiteMirror.__init__ (the pure part): normalize the start url, parse it,
require an http(s) scheme, and load robots unless they are ignored. -/
def mkSiteMirror (startUrl : Str) (outDir : List Str) (incSub : Bool)
    (maxPages : Nat) (ignoreRobots : Bool)
    (robotsLoad : Except Unit RobotsCanFetch) (ua : Str) : Option Config :=
  match normalize_url startUrl with
  | none => none
  | some s =>
    match urlparseE s with
    | none => none
    | some b =>
      if b.scheme ≠ chars "http" ∧ b.scheme ≠ chars "https" then none
      else some
        { outDir := outDir, base := b, includeSubdomains := incSub,
          maxPages := maxPages, ignoreRobots := ignoreRobots,
          robots := if ignoreRobots then none else init_robots robotsLoad,
          userAgent := ua, startUrl := s }

structure CrawlState where
  seen : List Str
  queue : List Str
  puts : List Str
  processed : List Str
  savedUrls : List Str
  savedPaths : List (List Str)
  pageCount : Nat
  crashed : Bool

def initState : CrawlState :=
  { seen := [], queue := [], puts := [], processed := [], savedUrls := [],
    savedPaths := [], pageCount := 0, crashed := false }

/-- SiteMirror.enqueue: normalize, then atomically check-and-insert into the
seen set before the queue put.  A ValueError from normalization propagates
before any state is touched, leaving the state unchanged. -/
def enqueue (s : CrawlState) (url : Str) : CrawlState :=
  match normalize_url url with
  | none => s
  | some u =>
    if u ∈ s.seen then s
    else { s with seen := s.seen ++ [u], queue := s.queue ++ [u],
                  puts := s.puts ++ [u] }

def crash (s : CrawlState) : CrawlState := { s with crashed := true }

/-- The worker body for one dequeued task (SiteMirror.worker, lines 312-392).
The environment maps a url to the fetched response (none = network error). -/
def processTask (cfg : Config) (env : Str → Option Response) (s : CrawlState)
    (url : Str) : CrawlState :=
  if !allowed_by_robots cfg.ignoreRobots cfg.robots cfg.userAgent url then s
  else
    match env url with
    | none => s
    | some resp =>
      if resp.status ≠ 200 then s
      else
        let ct := ctOf resp.contentTypeHeader
        match url_to_local_path cfg.outDir url ct with
        | none => crash s
        | some path =>
          if !resp.saveOk then s
          else
            let s := { s with savedUrls := setInsert s.savedUrls url,
                              savedPaths := setInsertP s.savedPaths path }
            if isHtmlCt ct then
              let s := { s with pageCount :=
                if cfg.maxPages ≠ 0 ∧ s.pageCount ≥ cfg.maxPages
                then s.pageCount else s.pageCount + 1 }
              match extract_links_and_assets cfg.base cfg.includeSubdomains
                  url resp.soup with
              | none => crash s
              | some (pages, assets) =>
                let s := pages.foldl (fun s p =>
                  if s.crashed then s
                  else if cfg.maxPages ≠ 0 ∧ s.pageCount ≥ cfg.maxPages ∧
                          p ∉ s.seen then s
                  else
                    match same_domainE cfg.base cfg.includeSubdomains p with
                    | none => crash s
                    | some true => enqueue s p
                    | some false => s) s
                assets.foldl (fun s a =>
                  if s.crashed then s
                  else
                    match same_domainE cfg.base cfg.includeSubdomains a with
                    | none => crash s
                    | some true => enqueue s a
                    | some false => s) s
            else if isCssCt ct then
              match extract_css_urls cfg.base cfg.includeSubdomains url
                  resp.cssRefs [] with
              | none => crash s
              | some urls => urls.foldl (fun s u =>
                  if s.crashed then s else enqueue s u) s
            else s

/-- One dequeue-and-process step; no-op on an empty queue or a dead worker. -/
def crawlStep (cfg : Config) (env : Str → Option Response) (s : CrawlState) :
    CrawlState :=
  if s.crashed then s
  else
    match s.queue with
    | [] => s
    | url :: rest =>
      processTask cfg env
        { s with queue := rest, processed := s.processed ++ [url] } url

def crawlRun (cfg : Config) (env : Str → Option Response) :
    Nat → CrawlState → CrawlState
  | 0, s => s
  | fuel + 1, s =>
    if s.queue.isEmpty then s
    else crawlRun cfg env fuel (crawlStep cfg env s)

/-- SiteMirror.run: seed the frontier with the start url, then drain. -/
def runMirror (cfg : Config) (env : Str → Option Response) (fuel : Nat) :
    CrawlState :=
  crawlRun cfg env fuel (enqueue initState cfg.startUrl)

/-! ### Concrete scenario instances (spec section 8) -/

/-- The property the extractor establishes for every produced URL: http(s)
scheme, in scope, and fragment-free. -/
def GoodUrl (base : ParseResult) (incSub : Bool) (u : Str) : Prop :=
  is_httpE u = some true ∧ same_domainE base incSub u = some true ∧ '#' ∉ u

/-- The parse of the scenario origin https://ex.com/. -/
def baseExCom : ParseResult :=
  ⟨chars "https", chars "ex.com", chars "/", [], [], []⟩

def elemAboutLink : Element := ⟨chars "a", [(chars "href", chars "/about")], none⟩

def elemLogoImg : Element := ⟨chars "img", [(chars "src", chars "/logo.png")], none⟩

/-- Scenario A configuration: start https://ex.com/, out dir "out", no
subdomains, no page cap, robots ignored. -/
def scenarioACfg : Option Config :=
  mkSiteMirror (chars "https://ex.com/") [chars "out"] false 0 true
    (Except.error ()) (chars "SiteMirrorBot/1.0")

/-- Scenario A network: the start page links /about and embeds /logo.png;
/about is an HTML page; /logo.png is a PNG asset. -/
def scenarioAEnv : Str → Option Response := fun u =>
  if u = chars "https://ex.com/" then
    some ⟨200, chars "text/html; charset=utf-8", [elemAboutLink, elemLogoImg],
      [], true⟩
  else if u = chars "https://ex.com/about" then
    some ⟨200, chars "text/html", [], [], true⟩
  else if u = chars "https://ex.com/logo.png" then
    some ⟨200, chars "image/png", [], [], true⟩
  else none

/-- Scenario A variant in which /about does not return an HTML 200 page. -/
def scenarioAEnv404 : Str → Option Response := fun u =>
  if u = chars "https://ex.com/" then
    some ⟨200, chars "text/html; charset=utf-8", [elemAboutLink, elemLogoImg],
      [], true⟩
  else if u = chars "https://ex.com/about" then
    some ⟨404, chars "text/html", [], [], true⟩
  else if u = chars "https://ex.com/logo.png" then
    some ⟨200, chars "image/png", [], [], true⟩
  else none

def scenarioARun : Option CrawlState :=
  scenarioACfg.map fun cfg => runMirror cfg scenarioAEnv 10

def scenarioARun404 : Option CrawlState :=
  scenarioACfg.map fun cfg => runMirror cfg scenarioAEnv404 10

/-- The soup of a page that references the same URL from an anchor and from
an img tag (used against the disjointness claim for the extractor). -/
def soupDup : List Element :=
  [⟨chars "a", [(chars "href", chars "/x.png")], none⟩,
   ⟨chars "img", [(chars "src", chars "/x.png")], none⟩]

/-- The frontier/dedup invariant of the crawl state: the put history is
duplicate-free, every put is in the seen set, and the processed history plus
the pending queue is exactly the put history. -/
def CrawlInv (s : CrawlState) : Prop :=
  s.puts.Nodup ∧ (∀ u ∈ s.puts, u ∈ s.seen) ∧
    s.processed ++ s.queue = s.puts

/-- A plain concrete configuration used by witnesses. -/
def defaultCfg : Config :=
  { outDir := [chars "out"], base := baseExCom, includeSubdomains := false,
    maxPages := 0, ignoreRobots := true, robots := none,
    userAgent := chars "SiteMirrorBot/1.0",
    startUrl := chars "https://ex.com/" }

/-! ### Helper lemmas: splitFirstChar -/

theorem splitFirstChar_eq_none_iff {c : Char} {l : Str} :
    splitFirstChar c l = none ↔ c ∉ l := by
  induction l with
  | nil => simp [splitFirstChar]
  | cons x xs ih =>
    by_cases hx : x = c
    · subst hx; simp [splitFirstChar]
    · simp only [splitFirstChar, if_neg hx, Option.map_eq_none', ih,
        List.mem_cons]
      constructor
      · rintro h (h1 | h2)
        · exact hx h1.symm
        · exact h h2
      · intro h h2
        exact h (Or.inr h2)

theorem splitFirstChar_of_decomp {c : Char} {a b : Str} (h : c ∉ a) :
    splitFirstChar c (a ++ c :: b) = some (a, b) := by
  induction a with
  | nil => simp [splitFirstChar]
  | cons x xs ih =>
    have hx : x ≠ c := fun hxc => h (hxc ▸ List.mem_cons_self x xs)
    have hxs : c ∉ xs := fun hm => h (List.mem_cons_of_mem x hm)
    simp [splitFirstChar, hx, ih hxs]

theorem splitFirstChar_eq_append {c : Char} {l a b : Str}
    (h : splitFirstChar c l = some (a, b)) : l = a ++ c :: b := by
  induction l generalizing a with
  | nil => simp [splitFirstChar] at h
  | cons x xs ih =>
    by_cases hx : x = c
    · subst hx
      simp [splitFirstChar] at h
      obtain ⟨rfl, rfl⟩ := h
      rfl
    · simp only [splitFirstChar, if_neg hx] at h
      cases hs : splitFirstChar c xs with
      | none => rw [hs] at h; simp at h
      | some p =>
        rw [hs] at h
        simp only [Option.map_some', Option.some_inj, Prod.mk.injEq] at h
        obtain ⟨ha, hb⟩ := h
        have hp : splitFirstChar c xs = some (p.1, b) := by rw [hs, ← hb]
        have := ih hp
        rw [← ha, this]
        rfl

theorem splitFirstChar_not_mem_before {c : Char} {l a b : Str}
    (h : splitFirstChar c l = some (a, b)) : c ∉ a := by
  induction l generalizing a with
  | nil => simp [splitFirstChar] at h
  | cons x xs ih =>
    by_cases hx : x = c
    · subst hx
      simp [splitFirstChar] at h
      obtain ⟨rfl, rfl⟩ := h
      simp
    · simp only [splitFirstChar, if_neg hx] at h
      cases hs : splitFirstChar c xs with
      | none => rw [hs] at h; simp at h
      | some p =>
        rw [hs] at h
        simp only [Option.map_some', Option.some_inj, Prod.mk.injEq] at h
        obtain ⟨ha, hb⟩ := h
        have hp : splitFirstChar c xs = some (p.1, p.2) := by rw [hs]
        rw [← ha]
        intro hm
        rcases List.mem_cons.mp hm with h1 | h2
        · exact hx h1.symm
        · exact ih (hb ▸ hp) h2

theorem splitFirstChar_append_some {c : Char} {l₁ l₂ a b : Str}
    (h : splitFirstChar c l₁ = some (a, b)) :
    splitFirstChar c (l₁ ++ l₂) = some (a, b ++ l₂) := by
  have hd := splitFirstChar_eq_append h
  have hnm := splitFirstChar_not_mem_before h
  rw [hd, List.append_assoc, List.cons_append]
  exact splitFirstChar_of_decomp hnm

theorem splitFirstChar_append_not_mem {c : Char} {l₁ l₂ : Str} (h : c ∉ l₁) :
    splitFirstChar c (l₁ ++ l₂) =
      (splitFirstChar c l₂).map (fun p => (l₁ ++ p.1, p.2)) := by
  induction l₁ with
  | nil =>
    simp only [List.nil_append]
    cases splitFirstChar c l₂ <;> rfl
  | cons x xs ih =>
    have hx : x ≠ c := fun hxc => h (hxc ▸ List.mem_cons_self x xs)
    have hxs : c ∉ xs := fun hm => h (List.mem_cons_of_mem x hm)
    have hstep : splitFirstChar c (x :: xs ++ l₂) =
        (splitFirstChar c (xs ++ l₂)).map (fun p => (x :: p.1, p.2)) := by
      simp [splitFirstChar, hx]
    rw [hstep, ih hxs, Option.map_map]
    cases splitFirstChar c l₂ <;> rfl

/-! ### Stage lemmas: urlsplit treats everything after the first unescaped
hash as the fragment, independent of the fragment's content. -/

theorem schemeSplitFn_snd_subset (d P : Str) : (schemeSplitFn d P).2 ⊆ P := by
  cases hs : splitFirstChar ':' P with
  | none => simp [schemeSplitFn, hs]
  | some p =>
    obtain ⟨a, b⟩ := p
    have hd := splitFirstChar_eq_append hs
    simp only [schemeSplitFn, hs]
    by_cases hok : schemeOk a = true
    · simp only [hok, if_true]
      intro x hx
      rw [hd]
      exact List.mem_append_right a (List.mem_cons_of_mem _ hx)
    · simp [hok]

theorem schemeSplitFn_hash (d P F : Str) :
    schemeSplitFn d (P ++ '#' :: F) =
      ((schemeSplitFn d P).1, (schemeSplitFn d P).2 ++ '#' :: F) := by
  cases hs : splitFirstChar ':' P with
  | some p =>
    obtain ⟨a, b⟩ := p
    have happ : splitFirstChar ':' (P ++ '#' :: F) = some (a, b ++ '#' :: F) :=
      splitFirstChar_append_some hs
    by_cases hok : schemeOk a = true
    · simp [schemeSplitFn, hs, happ, hok]
    · simp [schemeSplitFn, hs, happ, hok]
  | none =>
    have hnm : ':' ∉ P := splitFirstChar_eq_none_iff.mp hs
    have happ : splitFirstChar ':' (P ++ '#' :: F) =
        (splitFirstChar ':' ('#' :: F)).map (fun p => (P ++ p.1, p.2)) :=
      splitFirstChar_append_not_mem hnm
    simp only [schemeSplitFn, hs, happ]
    cases hf : splitFirstChar ':' ('#' :: F) with
    | none => simp
    | some q =>
      obtain ⟨a2, b2⟩ := q
      simp only [Option.map_some']
      have hmem : '#' ∈ P ++ a2 := by
        have ha2 := splitFirstChar_eq_append hf
        rcases a2 with _ | ⟨y, ys⟩
        · simp at ha2
        · have : y = '#' := by
            have := congrArg (fun l => l.head?) ha2
            simpa using this.symm
          subst this
          exact List.mem_append_right P (List.mem_cons_self _ _)
      have hall : ((P ++ a2).all schemeChar) = false :=
        List.all_eq_false.mpr ⟨'#', hmem, by decide⟩
      have hok : schemeOk (P ++ a2) = false := by
        unfold schemeOk
        rw [hall, Bool.and_false]
      simp [hok]

theorem splitnetloc2_hash (rest F : Str) :
    splitnetloc2 (rest ++ '#' :: F) =
      ((splitnetloc2 rest).1, (splitnetloc2 rest).2 ++ '#' :: F) := by
  induction rest with
  | nil => simp [splitnetloc2, List.takeWhile_cons, List.dropWhile_cons, netlocDelim]
  | cons x xs ih =>
    by_cases hx : netlocDelim x = true
    · simp [splitnetloc2, List.takeWhile_cons, List.dropWhile_cons, hx]
    · have hx2 : (!netlocDelim x) = true := by simp [hx]
      simp only [splitnetloc2, List.cons_append, List.takeWhile_cons,
        List.dropWhile_cons, hx2, if_true] at *
      simp only [Prod.mk.injEq] at ih ⊢
      exact ⟨by rw [ih.1], ih.2⟩

theorem netlocBracketCheck_eq {nl v : Str} {r : Str × Str}
    (h : netlocBracketCheck nl v = some r) : r = (nl, v) := by
  unfold netlocBracketCheck at h
  split at h
  · simp at h
  · split at h
    · simp at h
    · simp only [Option.some_inj] at h
      exact h.symm

theorem netlocBracketCheck_map (nl v F : Str) :
    netlocBracketCheck nl (v ++ '#' :: F) =
      (netlocBracketCheck nl v).map (fun p => (p.1, p.2 ++ '#' :: F)) := by
  unfold netlocBracketCheck
  split
  · rfl
  · split
    · rfl
    · rfl

theorem netlocSplitFn_hash (u F : Str) :
    netlocSplitFn (u ++ '#' :: F) =
      (netlocSplitFn u).map (fun p => (p.1, p.2 ++ '#' :: F)) := by
  match u with
  | [] =>
    have hne : ('#' :: F).take 2 ≠ ['/', '/'] := by
      cases F <;> simp
    simp [netlocSplitFn, hne]
  | [x] =>
    have hne1 : (x :: '#' :: F).take 2 ≠ ['/', '/'] := by simp
    have hne2 : [x].take 2 ≠ ['/', '/'] := by simp
    simp [netlocSplitFn, hne1, hne2]
  | x :: y :: rest =>
    by_cases hxy : x = '/' ∧ y = '/'
    · obtain ⟨rfl, rfl⟩ := hxy
      have e1 : ('/' :: '/' :: rest ++ '#' :: F).take 2 = ['/', '/'] := rfl
      have e2 : ('/' :: '/' :: rest).take 2 = ['/', '/'] := rfl
      have d1 : ('/' :: '/' :: rest ++ '#' :: F).drop 2 = rest ++ '#' :: F := rfl
      have d2 : ('/' :: '/' :: rest).drop 2 = rest := rfl
      unfold netlocSplitFn
      rw [if_pos e1, if_pos e2, d1, d2, splitnetloc2_hash]
      exact netlocBracketCheck_map _ _ F
    · have hne1 : (x :: y :: rest ++ '#' :: F).take 2 ≠ ['/', '/'] := by
        simp only [List.cons_append, List.take_succ_cons, List.take_zero]
        intro hc
        simp only [List.cons.injEq, and_true] at hc
        exact hxy hc
      have hne2 : (x :: y :: rest).take 2 ≠ ['/', '/'] := by
        simp only [List.take_succ_cons, List.take_zero]
        intro hc
        simp only [List.cons.injEq, and_true] at hc
        exact hxy hc
      unfold netlocSplitFn
      rw [if_neg hne1, if_neg hne2]
      rfl

theorem netlocSplitFn_snd_subset {u nl v : Str}
    (h : netlocSplitFn u = some (nl, v)) : v ⊆ u := by
  unfold netlocSplitFn at h
  split at h
  · have := netlocBracketCheck_eq h
    have hv : v = (splitnetloc2 (u.drop 2)).2 := by
      have := congrArg Prod.snd this
      simpa using this
    rw [hv]
    intro x hx
    exact List.mem_of_mem_drop (List.dropWhile_subset _ hx)
  · simp only [Option.some_inj, Prod.mk.injEq] at h
    rw [← h.2]
    exact fun x hx => hx

theorem tailSplitFn_hash {v : Str} (F : Str) (h : '#' ∉ v) :
    tailSplitFn '#' (v ++ '#' :: F) = (v, F) := by
  unfold tailSplitFn
  rw [splitFirstChar_of_decomp h]

theorem tailSplitFn_not_mem {c : Char} {v : Str} (h : c ∉ v) :
    tailSplitFn c v = (v, []) := by
  unfold tailSplitFn
  rw [splitFirstChar_eq_none_iff.mpr h]

/-- Master stage lemma: on a cleaned input with its first hash made explicit,
urlsplitCore factors through the hash-free half. -/
theorem urlsplitCore_hash (d : Str) {P : Str} (F : Str) (h : '#' ∉ P) :
    urlsplitCore d (P ++ '#' :: F) =
      (urlsplitCore d P).map (fun r => { r with fragment := F }) := by
  have hu2 : '#' ∉ (schemeSplitFn d P).2 :=
    fun hm => h (schemeSplitFn_snd_subset d P hm)
  simp only [urlsplitCore, schemeSplitFn_hash d P F,
    netlocSplitFn_hash (schemeSplitFn d P).2 F]
  cases hn : netlocSplitFn (schemeSplitFn d P).2 with
  | none => rfl
  | some p =>
    obtain ⟨nl, v⟩ := p
    have hv : '#' ∉ v := fun hm => hu2 (netlocSplitFn_snd_subset hn hm)
    simp only [Option.map_some']
    rw [tailSplitFn_hash F hv, tailSplitFn_not_mem hv]

/-! ### Lifting the fragment lemma through cleaning, parsing and stripping -/

theorem dropWhile_append_cons_neg {p : Char → Bool} {c : Char} (l r : Str)
    (hc : p c = false) :
    (l ++ c :: r).dropWhile p = l.dropWhile p ++ c :: r := by
  rw [List.dropWhile_append]
  split
  · rename_i he
    rw [List.isEmpty_iff] at he
    rw [he, List.dropWhile_cons_of_neg (by simp [hc])]
    rfl
  · rfl

theorem removeUnsafeBytes_hash (a b : Str) :
    removeUnsafeBytes (a ++ '#' :: b) =
      removeUnsafeBytes a ++ '#' :: removeUnsafeBytes b := by
  unfold removeUnsafeBytes
  rw [List.filter_append, List.filter_cons]
  simp

theorem removeUnsafeBytes_subset (u : Str) : removeUnsafeBytes u ⊆ u :=
  fun _ hx => (List.mem_filter.mp hx).1

theorem pyLstrip_hash (a b : Str) :
    pyLstrip (a ++ '#' :: b) = pyLstrip a ++ '#' :: b :=
  dropWhile_append_cons_neg a b (by decide)

theorem pyRstrip_cons_neg {c : Char} (a b : Str) (hc : pyIsSpace c = false) :
    pyRstrip (a ++ c :: b) = a ++ c :: pyRstrip b := by
  unfold pyRstrip
  have hrev : (a ++ c :: b).reverse = b.reverse ++ c :: a.reverse := by
    simp
  rw [hrev, dropWhile_append_cons_neg _ _ hc]
  simp [pyRstrip]

theorem pyStrip_hash (a b : Str) :
    pyStrip (a ++ '#' :: b) = pyLstrip a ++ '#' :: pyRstrip b := by
  unfold pyStrip
  rw [pyLstrip_hash, pyRstrip_cons_neg _ _ (by decide)]

theorem pyLstrip_subset (u : Str) : pyLstrip u ⊆ u :=
  List.dropWhile_subset pyIsSpace

/-- urlsplit factors every input through its hash-free half: the fragment
content never influences the other components. -/
theorem urlsplitD_hash (d : Str) {pre : Str} (f : Str) (h : '#' ∉ pre) :
    urlsplitD (pre ++ '#' :: f) d =
      (urlsplitD pre d).map (fun r => { r with fragment := removeUnsafeBytes f }) := by
  unfold urlsplitD
  have hl := dropWhile_append_cons_neg pre f
    (by decide : isC0OrSpace '#' = false)
  rw [hl, removeUnsafeBytes_hash]
  exact urlsplitCore_hash _ (removeUnsafeBytes f)
    (fun hm => h (List.dropWhile_subset isC0OrSpace (removeUnsafeBytes_subset _ hm)))

theorem urlparseD_hash (d : Str) {pre : Str} (f : Str) (h : '#' ∉ pre) :
    urlparseD (pre ++ '#' :: f) d =
      (urlparseD pre d).map (fun r => { r with fragment := removeUnsafeBytes f }) := by
  unfold urlparseD
  rw [urlsplitD_hash d f h, Option.map_map, Option.map_map]
  cases urlsplitD pre d with
  | none => rfl
  | some r =>
    simp only [Option.map_some', Function.comp_apply]
    split
    · rfl
    · rfl

/-- The two halves of _normalize_url seen on an explicit first hash. -/
theorem normalize_url_hash {pre : Str} (f : Str) (h : '#' ∉ pre) :
    normalize_url (pre ++ '#' :: f) =
      (urlparseE (pyLstrip pre)).map (fun r => urlunparse { r with fragment := [] }) := by
  unfold normalize_url
  rw [pyStrip_hash]
  have hmem : '#' ∈ pyLstrip pre ++ '#' :: pyRstrip f :=
    List.mem_append_right _ (List.mem_cons_self _ _)
  unfold urldefragE
  rw [if_pos hmem]
  have hnp : '#' ∉ pyLstrip pre := fun hm => h (pyLstrip_subset pre hm)
  simp only [urlparseE]
  rw [urlparseD_hash [] (pyRstrip f) hnp, Option.map_map]
  cases urlparseE (pyLstrip pre) with
  | none => rfl
  | some r => rfl

theorem urlsplitE_hash {pre : Str} (f : Str) (h : '#' ∉ pre) :
    urlsplitE (pre ++ '#' :: f) =
      (urlsplitE pre).map (fun r => { r with fragment := removeUnsafeBytes f }) :=
  urlsplitD_hash [] f h

/-! ### Claim theorems -/

/-- Claim C8: _normalize_url is fragment-insensitive — two URLs that differ
only in the fragment after the first hash normalize identically; in
particular normalize("https://a/b#frag1") = normalize("https://a/b#frag2");
and the path and query components produced by urlsplit are unaffected by the
fragment content. -/
theorem claim_C8_fragment_insensitivity :
    (∀ pre f1 f2 : Str, '#' ∉ pre →
        normalize_url (pre ++ '#' :: f1) = normalize_url (pre ++ '#' :: f2)) ∧
    normalize_url (chars "https://a/b#frag1") =
      normalize_url (chars "https://a/b#frag2") ∧
    (∀ pre f : Str, '#' ∉ pre →
        (urlsplitE (pre ++ '#' :: f)).map SplitResult.path =
          (urlsplitE pre).map SplitResult.path ∧
        (urlsplitE (pre ++ '#' :: f)).map SplitResult.query =
          (urlsplitE pre).map SplitResult.query) := by
  refine ⟨fun pre f1 f2 h => ?_, by decide, fun pre f h => ?_⟩
  · rw [normalize_url_hash f1 h, normalize_url_hash f2 h]
  · rw [urlsplitE_hash f h, Option.map_map, Option.map_map]
    constructor
    · cases urlsplitE pre <;> rfl
    · cases urlsplitE pre <;> rfl

/-- Witness for claim C8 at a concrete input. -/
theorem claim_C8_fragment_insensitivity_witness :
    ('#' ∉ chars "https://a/b") ∧
      normalize_url (chars "https://a/b" ++ '#' :: chars "frag1") =
        normalize_url (chars "https://a/b" ++ '#' :: chars "frag2") :=
  ⟨by decide, claim_C8_fragment_insensitivity.1 (chars "https://a/b")
    (chars "frag1") (chars "frag2") (by decide)⟩

/-! ### Idempotence facts about stripping and normalization (claim C10) -/

theorem pyRstrip_subset (u : Str) : pyRstrip u ⊆ u := by
  intro x hx
  unfold pyRstrip at hx
  rw [List.mem_reverse] at hx
  have := List.dropWhile_subset pyIsSpace hx
  rwa [List.mem_reverse] at this

theorem pyStrip_subset (u : Str) : pyStrip u ⊆ u :=
  fun x hx => pyLstrip_subset u (pyRstrip_subset (pyLstrip u) hx)

theorem normalize_url_no_hash {u : Str} (h : '#' ∉ u) :
    normalize_url u = some (pyStrip u) := by
  unfold normalize_url urldefragE
  rw [if_neg (fun hm => h (pyStrip_subset u hm))]

theorem pyRstrip_eq_rdropWhile (l : Str) :
    pyRstrip l = List.rdropWhile pyIsSpace l := rfl

theorem pyStrip_idem (u : Str) : pyStrip (pyStrip u) = pyStrip u := by
  unfold pyStrip pyLstrip
  rw [pyRstrip_eq_rdropWhile, pyRstrip_eq_rdropWhile]
  have h1 : List.dropWhile pyIsSpace
      (List.rdropWhile pyIsSpace (List.dropWhile pyIsSpace u)) =
      List.rdropWhile pyIsSpace (List.dropWhile pyIsSpace u) := by
    rw [List.dropWhile_eq_self_iff]
    intro hpos
    obtain ⟨t, ht⟩ := ( List.rdropWhile_prefix pyIsSpace
      (List.dropWhile pyIsSpace u))
    have hlen : 0 < (List.dropWhile pyIsSpace u).length := by
      rw [← ht, List.length_append]
      omega
    have h0 : (List.rdropWhile pyIsSpace (List.dropWhile pyIsSpace u) ++
        t).get? 0 = (List.rdropWhile pyIsSpace
          (List.dropWhile pyIsSpace u)).get? 0 := List.get?_append hpos
    rw [ht] at h0
    rw [List.get?_eq_get hlen, List.get?_eq_get hpos] at h0
    rw [← Option.some.inj h0]
    exact List.dropWhile_get_zero_not pyIsSpace u hlen
  rw [h1, List.rdropWhile_idempotent]

/-- Claim C10 counterexample: _normalize_url is not idempotent.  Stripping
the fragment from "a b #f" leaves the trailing space that preceded the hash,
and a second normalization removes it. -/
theorem claim_C10_counterexample :
    (normalize_url (chars "a b #f")).bind normalize_url ≠
      normalize_url (chars "a b #f") ∧
    normalize_url (chars "a b #f") = some (chars "a b ") ∧
    (some (chars "a b ")).bind normalize_url = some (chars "a b") := by
  decide

/-- Claim C10 amended: _normalize_url is idempotent on every fragment-free
input — there it reduces to whitespace stripping, which is idempotent; full
idempotence fails only when dropping a fragment exposes trailing
whitespace. -/
theorem claim_C10_amended :
    ∀ u : Str, '#' ∉ u →
      (normalize_url u).bind normalize_url = normalize_url u := by
  intro u h
  rw [normalize_url_no_hash h]
  rw [Option.some_bind]
  rw [normalize_url_no_hash (fun hm => h (pyStrip_subset u hm)), pyStrip_idem]

/-- Witness for the amended claim C10 at a concrete input. -/
theorem claim_C10_amended_witness :
    ('#' ∉ chars " https://a/b?q=1 ") ∧
      (normalize_url (chars " https://a/b?q=1 ")).bind normalize_url =
        normalize_url (chars " https://a/b?q=1 ") :=
  ⟨by decide, claim_C10_amended (chars " https://a/b?q=1 ") (by decide)⟩

/-- Claim C2: the robots gate fails open.  If the policy is absent (load
failure left rp = None), or robots are ignored, or can_fetch raises, then
_allowed_by_robots returns true; in particular after a load failure the
check returns true for every URL for the whole run. -/
theorem claim_C2_robots_fail_open :
    (∀ (ign : Bool) (rp : Option RobotsCanFetch) (ua url : Str),
        rp = none ∨ ign = true ∨
          (∃ p e, rp = some p ∧ p ua url = Except.error e) →
        allowed_by_robots ign rp ua url = true) ∧
    (∀ (e : Unit) (ign : Bool) (ua url : Str),
        init_robots (Except.error e) = none ∧
        allowed_by_robots ign (init_robots (Except.error e)) ua url = true) := by
  constructor
  · rintro ign rp ua url (rfl | rfl | ⟨p, e, rfl, hp⟩)
    · cases ign <;> simp [allowed_by_robots]
    · simp [allowed_by_robots]
    · cases ign
      · simp [allowed_by_robots, hp]
      · simp [allowed_by_robots]
  · intro e ign ua url
    refine ⟨rfl, ?_⟩
    cases ign <;> simp [allowed_by_robots, init_robots]

/-- Witness for claim C2: with no loaded policy the gate allows a concrete
URL even though robots are being respected. -/
theorem claim_C2_robots_fail_open_witness :
    allowed_by_robots false none (chars "SiteMirrorBot/1.0")
      (chars "https://ex.com/private/x") = true :=
  claim_C2_robots_fail_open.1 false none (chars "SiteMirrorBot/1.0")
    (chars "https://ex.com/private/x") (Or.inl rfl)

/-- Claim C6 counterexample: _same_domain compares netlocs exactly, not
case-insensitively.  With subdomains disabled, a URL whose host differs from
the origin host only in letter case is rejected, although standard host
normalization (the hostname property) equates the two hosts. -/
theorem claim_C6_counterexample :
    ∃ b, urlparseE (chars "https://ex.com/") = some b ∧
      (∃ p, urlparseE (chars "https://EX.com/a") = some p ∧
        hostnameOf p.netloc = hostnameOf b.netloc ∧ p.netloc ≠ b.netloc) ∧
      same_domainE b false (chars "https://EX.com/a") = some false := by
  refine ⟨⟨chars "https", chars "ex.com", chars "/", [], [], []⟩, by decide,
    ⟨⟨chars "https", chars "EX.com", chars "/a", [], [], []⟩, by decide,
      by decide, by decide⟩, by decide⟩

/-- Claim C6 amended: with subdomain inclusion disabled, _same_domain is
exactly the case-sensitive equality of the URL netloc with the origin
netloc (so case-differing hosts are treated as different). -/
theorem claim_C6_amended :
    ∀ (b : ParseResult) (u : Str) (p : ParseResult), urlparseE u = some p →
      same_domainE b false u = some (decide (p.netloc = b.netloc)) := by
  intro b u p hp
  unfold same_domainE
  rw [hp]
  simp only [Option.map_some']
  by_cases h : p.netloc = b.netloc
  · simp [h]
  · simp [h]

/-- Witness for the amended claim C6 at a concrete input. -/
theorem claim_C6_amended_witness :
    urlparseE (chars "https://EX.com/a") =
      some ⟨chars "https", chars "EX.com", chars "/a", [], [], []⟩ ∧
    same_domainE ⟨chars "https", chars "ex.com", chars "/", [], [], []⟩ false
        (chars "https://EX.com/a") =
      some (decide ((⟨chars "https", chars "EX.com", chars "/a", [], [],
        []⟩ : ParseResult).netloc =
          (⟨chars "https", chars "ex.com", chars "/", [], [], []⟩ :
            ParseResult).netloc)) :=
  ⟨by decide, claim_C6_amended
    ⟨chars "https", chars "ex.com", chars "/", [], [], []⟩
    (chars "https://EX.com/a")
    ⟨chars "https", chars "EX.com", chars "/a", [], [], []⟩ (by decide)⟩

/-- Claim C7: for a fixed origin, enabling subdomain inclusion only enlarges
the accepted set — every URL accepted with it disabled is accepted with it
enabled — and the inclusion is strict: a strict subdomain of the origin host
is accepted only with it enabled. -/
theorem claim_C7_subdomain_monotonicity :
    (∀ (b : ParseResult) (u : Str),
        same_domainE b false u = some true →
        same_domainE b true u = some true) ∧
    (∃ b, urlparseE (chars "https://ex.com/") = some b ∧
      same_domainE b false (chars "https://sub.ex.com/x") = some false ∧
      same_domainE b true (chars "https://sub.ex.com/x") = some true) := by
  constructor
  · intro b u h
    unfold same_domainE at h ⊢
    cases hp : urlparseE u with
    | none => rw [hp] at h; simp at h
    | some p =>
      rw [hp] at h
      simp only [Option.map_some'] at h ⊢
      by_cases he : p.netloc = b.netloc
      · simp [he]
      · simp [he] at h
  · exact ⟨⟨chars "https", chars "ex.com", chars "/", [], [], []⟩, by decide,
      by decide, by decide⟩

/-- Witness for claim C7 at a concrete input: an exactly-matching host stays
accepted when subdomain inclusion is enabled. -/
theorem claim_C7_subdomain_monotonicity_witness :
    same_domainE ⟨chars "https", chars "ex.com", chars "/", [], [], []⟩ false
      (chars "https://ex.com/a") = some true ∧
    same_domainE ⟨chars "https", chars "ex.com", chars "/", [], [], []⟩ true
      (chars "https://ex.com/a") = some true :=
  ⟨by decide, claim_C7_subdomain_monotonicity.1
    ⟨chars "https", chars "ex.com", chars "/", [], [], []⟩
    (chars "https://ex.com/a") (by decide)⟩

/-- Claim C4 counterexample: in scenario A the extensionless HTML page
/about is NOT saved at about/index.html — url_to_local_path appends a .html
suffix instead, and the crawl writes out/ex.com/about.html. -/
theorem claim_C4_counterexample :
    url_to_local_path [chars "out"] (chars "https://ex.com/about")
        (chars "text/html") =
      some [chars "out", chars "ex.com", chars "about.html"] ∧
    url_to_local_path [chars "out"] (chars "https://ex.com/about")
        (chars "text/html") ≠
      some [chars "out", chars "ex.com", chars "about", chars "index.html"] ∧
    scenarioARun.map CrawlState.savedPaths =
      some [[chars "out", chars "ex.com", chars "index.html"],
            [chars "out", chars "ex.com", chars "about.html"],
            [chars "out", chars "ex.com", chars "logo.png"]] := by
  refine ⟨by decide, by decide, by decide⟩

/-- Claim C4 amended: scenario A saves exactly out/ex.com/index.html,
out/ex.com/logo.png, and — when /about returns an HTML 200 response —
out/ex.com/about.html (the extensionless page gets a .html suffix, not an
index.html directory file); three URLs are scheduled either way, and the
crawl terminates with an empty queue and no worker failure. -/
theorem claim_C4_amended :
    scenarioARun.map CrawlState.savedPaths =
      some [[chars "out", chars "ex.com", chars "index.html"],
            [chars "out", chars "ex.com", chars "about.html"],
            [chars "out", chars "ex.com", chars "logo.png"]] ∧
    scenarioARun404.map CrawlState.savedPaths =
      some [[chars "out", chars "ex.com", chars "index.html"],
            [chars "out", chars "ex.com", chars "logo.png"]] ∧
    scenarioARun.map (fun s => s.seen.length) = some 3 ∧
    scenarioARun.map (fun s => (s.queue.isEmpty, s.crashed)) =
      some (true, false) := by
  refine ⟨by decide, by decide, by decide, by decide⟩

/-! ### No output of _normalize_url contains a hash -/

theorem toLower_eq_hash_imp {c : Char} (h : Char.toLower c = '#') :
    c = '#' := by
  by_cases hr : c.toNat ≥ 65 ∧ c.toNat ≤ 90
  · exfalso
    unfold Char.toLower at h
    rw [if_pos hr] at h
    have h1 : 65 ≤ c.toNat := hr.1
    have h2 : c.toNat ≤ 90 := hr.2
    generalize hg : c.toNat = n at h h1 h2
    interval_cases n <;> exact absurd h (by decide)
  · unfold Char.toLower at h
    rw [if_neg hr] at h
    exact h

theorem pyLower_no_hash {a : Str} (h : '#' ∉ a) : '#' ∉ pyLower a := by
  intro hm
  unfold pyLower at hm
  rw [List.mem_map] at hm
  obtain ⟨c, hc, hlc⟩ := hm
  exact h (toLower_eq_hash_imp hlc ▸ hc)

theorem splitFirstChar_parts_subset {c : Char} {l a b : Str}
    (h : splitFirstChar c l = some (a, b)) : a ⊆ l ∧ b ⊆ l := by
  have hd := splitFirstChar_eq_append h
  constructor
  · intro x hx; rw [hd]; exact List.mem_append_left _ hx
  · intro x hx; rw [hd]; exact List.mem_append_right _ (List.mem_cons_of_mem _ hx)

theorem splitLastChar_eq_append {c : Char} {l a b : Str}
    (h : splitLastChar c l = some (a, b)) : l = a ++ c :: b := by
  unfold splitLastChar at h
  cases hs : splitFirstChar c l.reverse with
  | none => rw [hs] at h; simp at h
  | some p =>
    rw [hs] at h
    simp only [Option.map_some', Option.some_inj, Prod.mk.injEq] at h
    have hd : l.reverse = p.1 ++ c :: p.2 :=
      splitFirstChar_eq_append (by rw [hs])
    have := congrArg List.reverse hd
    rw [List.reverse_reverse] at this
    rw [this, ← h.1, ← h.2]
    simp

theorem tailSplitFn_parts_subset (c : Char) (l : Str) :
    (tailSplitFn c l).1 ⊆ l ∧ (tailSplitFn c l).2 ⊆ l := by
  unfold tailSplitFn
  cases hs : splitFirstChar c l with
  | none => exact ⟨fun x hx => hx, fun x hx => by simp at hx⟩
  | some p =>
    have hp : splitFirstChar c l = some (p.1, p.2) := by rw [hs]
    exact splitFirstChar_parts_subset hp

theorem tailSplitFn_fst_no_hash (l : Str) : '#' ∉ (tailSplitFn '#' l).1 := by
  unfold tailSplitFn
  cases hs : splitFirstChar '#' l with
  | none => exact splitFirstChar_eq_none_iff.mp hs
  | some p =>
    have hp : splitFirstChar '#' l = some (p.1, p.2) := by rw [hs]
    exact splitFirstChar_not_mem_before hp

theorem urlsplitCore_no_hash {d u : Str} {r : SplitResult} (hd : '#' ∉ d)
    (h : urlsplitCore d u = some r) :
    '#' ∉ r.scheme ∧ '#' ∉ r.netloc ∧ '#' ∉ r.path ∧ '#' ∉ r.query := by
  simp only [urlsplitCore] at h
  cases hn : netlocSplitFn (schemeSplitFn d u).2 with
  | none => rw [hn] at h; simp at h
  | some p =>
    obtain ⟨nl, u1⟩ := p
    rw [hn] at h
    simp only [Option.some_inj] at h
    have hscheme : '#' ∉ (schemeSplitFn d u).1 := by
      unfold schemeSplitFn
      cases hs : splitFirstChar ':' u with
      | none => exact hd
      | some q =>
        obtain ⟨a, b⟩ := q
        by_cases hok : schemeOk a = true
        · simp only [hok, if_true]
          have hall : a.all schemeChar = true := by
            unfold schemeOk at hok
            exact (Bool.and_eq_true _ _ |>.mp hok).2
          refine pyLower_no_hash (fun hm => ?_)
          have := List.all_eq_true.mp hall _ hm
          exact absurd this (by decide)
        · simp only [hok, if_false]
          exact hd
    have hnl : '#' ∉ nl := by
      unfold netlocSplitFn at hn
      split at hn
      · have := netlocBracketCheck_eq hn
        have h1 : nl = ((schemeSplitFn d u).2.drop 2).takeWhile
            (fun c => !netlocDelim c) := by
          have := congrArg Prod.fst this
          simpa [splitnetloc2] using this
        rw [h1]
        intro hm
        have := List.mem_takeWhile_imp hm
        exact absurd this (by decide)
      · simp only [Option.some_inj, Prod.mk.injEq] at hn
        rw [← hn.1]
        simp
    have hu1free : '#' ∉ (tailSplitFn '#' u1).1 := tailSplitFn_fst_no_hash u1
    have hqparts := tailSplitFn_parts_subset '?' (tailSplitFn '#' u1).1
    rw [← h]
    exact ⟨hscheme, hnl,
      fun hm => hu1free (hqparts.1 hm),
      fun hm => hu1free (hqparts.2 hm)⟩

theorem splitparams_no_hash {path : Str} (h : '#' ∉ path) :
    '#' ∉ (splitparams path).1 ∧ '#' ∉ (splitparams path).2 := by
  unfold splitparams
  split
  · split
    · rename_i a b hl
      split
      · rename_i b1 b2 hf
        have hdl : path = a ++ '/' :: b := splitLastChar_eq_append hl
        have hdb : b = b1 ++ ';' :: b2 := splitFirstChar_eq_append hf
        constructor
        · intro hm
          rcases List.mem_append.mp hm with h1 | h2
          · exact h (hdl ▸ List.mem_append_left _ h1)
          · rcases List.mem_cons.mp h2 with h3 | h4
            · exact absurd h3 (by decide)
            · refine h (hdl ▸ List.mem_append_right _
                (List.mem_cons_of_mem _ ?_))
              exact hdb ▸ List.mem_append_left _ h4
        · intro hm
          refine h (hdl ▸ List.mem_append_right _ (List.mem_cons_of_mem _ ?_))
          exact hdb ▸ List.mem_append_right _ (List.mem_cons_of_mem _ hm)
      · exact ⟨h, by simp⟩
    · exact ⟨h, by simp⟩
  · split
    · rename_i u1 u2 hf
      have hdp : path = u1 ++ ';' :: u2 := splitFirstChar_eq_append hf
      exact ⟨fun hm => h (hdp ▸ List.mem_append_left _ hm),
        fun hm => h (hdp ▸ List.mem_append_right _ (List.mem_cons_of_mem _ hm))⟩
    · exact ⟨h, by simp⟩

theorem urlparseD_no_hash {u d : Str} {r : ParseResult} (hd : '#' ∉ d)
    (h : urlparseD u d = some r) :
    '#' ∉ r.scheme ∧ '#' ∉ r.netloc ∧ '#' ∉ r.path ∧ '#' ∉ r.params ∧
      '#' ∉ r.query := by
  unfold urlparseD urlsplitD at h
  cases hs : urlsplitCore (removeUnsafeBytes (pyStrip d))
      (removeUnsafeBytes (u.dropWhile isC0OrSpace)) with
  | none => rw [hs] at h; simp at h
  | some sr =>
    rw [hs] at h
    simp only [Option.map_some', Option.some_inj] at h
    have hdc : '#' ∉ removeUnsafeBytes (pyStrip d) :=
      fun hm => hd (pyStrip_subset d (removeUnsafeBytes_subset _ hm))
    have hcomp := urlsplitCore_no_hash hdc hs
    split at h
    · have hsp := splitparams_no_hash hcomp.2.2.1
      rw [← h]
      exact ⟨hcomp.1, hcomp.2.1, hsp.1, hsp.2, hcomp.2.2.2⟩
    · rw [← h]
      exact ⟨hcomp.1, hcomp.2.1, hcomp.2.2.1, by simp, hcomp.2.2.2⟩

theorem urlunsplit_no_hash {r : SplitResult} (hs : '#' ∉ r.scheme)
    (hn : '#' ∉ r.netloc) (hp : '#' ∉ r.path) (hq : '#' ∉ r.query)
    (hf : r.fragment = []) : '#' ∉ urlunsplit r := by
  unfold urlunsplit
  rw [hf]
  simp only [List.isEmpty_nil, Bool.not_true, if_false]
  intro hm
  have hstep1 : ∀ x ∈ (if !r.path.isEmpty ∧ r.path.take 1 ≠ ['/']
      then '/' :: r.path else r.path), x = '/' ∨ x ∈ r.path := by
    intro x hx
    split at hx
    · rcases List.mem_cons.mp hx with h1 | h2
      · exact Or.inl h1
      · exact Or.inr h2
    · exact Or.inr hx
  have hstep2 : ∀ x ∈ (if !r.netloc.isEmpty ∨
      (!r.scheme.isEmpty ∧ r.scheme ∈ usesNetloc ∧ r.path.take 2 ≠ ['/', '/'])
      then '/' :: '/' :: (r.netloc ++
        (if !r.path.isEmpty ∧ r.path.take 1 ≠ ['/'] then '/' :: r.path
         else r.path))
      else r.path), x = '/' ∨ x ∈ r.netloc ∨ x ∈ r.path := by
    intro x hx
    split at hx
    · rcases List.mem_cons.mp hx with h1 | hx2
      · exact Or.inl h1
      · rcases List.mem_cons.mp hx2 with h1 | hx3
        · exact Or.inl h1
        · rcases List.mem_append.mp hx3 with h1 | h2
          · exact Or.inr (Or.inl h1)
          · rcases hstep1 x h2 with h3 | h4
            · exact Or.inl h3
            · exact Or.inr (Or.inr h4)
    · exact Or.inr (Or.inr hx)
  have hstep3 : ∀ x ∈ (if !r.scheme.isEmpty then r.scheme ++ ':' ::
      (if !r.netloc.isEmpty ∨ (!r.scheme.isEmpty ∧ r.scheme ∈ usesNetloc ∧
          r.path.take 2 ≠ ['/', '/'])
       then '/' :: '/' :: (r.netloc ++
         (if !r.path.isEmpty ∧ r.path.take 1 ≠ ['/'] then '/' :: r.path
          else r.path))
       else r.path)
      else (if !r.netloc.isEmpty ∨ (!r.scheme.isEmpty ∧ r.scheme ∈ usesNetloc ∧
          r.path.take 2 ≠ ['/', '/'])
       then '/' :: '/' :: (r.netloc ++
         (if !r.path.isEmpty ∧ r.path.take 1 ≠ ['/'] then '/' :: r.path
          else r.path))
       else r.path)), x ∈ r.scheme ∨ x = ':' ∨ x = '/' ∨ x ∈ r.netloc ∨
        x ∈ r.path := by
    intro x hx
    split at hx
    · rcases List.mem_append.mp hx with h1 | hx2
      · exact Or.inl h1
      · rcases List.mem_cons.mp hx2 with h1 | hx3
        · exact Or.inr (Or.inl h1)
        · rcases hstep2 x hx3 with h1 | h2 | h3
          · exact Or.inr (Or.inr (Or.inl h1))
          · exact Or.inr (Or.inr (Or.inr (Or.inl h2)))
          · exact Or.inr (Or.inr (Or.inr (Or.inr h3)))
    · rcases hstep2 x hx with h1 | h2 | h3
      · exact Or.inr (Or.inr (Or.inl h1))
      · exact Or.inr (Or.inr (Or.inr (Or.inl h2)))
      · exact Or.inr (Or.inr (Or.inr (Or.inr h3)))
  have hfin : ∀ x ∈ (if !r.query.isEmpty then
      (if !r.scheme.isEmpty then r.scheme ++ ':' ::
        (if !r.netloc.isEmpty ∨ (!r.scheme.isEmpty ∧ r.scheme ∈ usesNetloc ∧
            r.path.take 2 ≠ ['/', '/'])
         then '/' :: '/' :: (r.netloc ++
           (if !r.path.isEmpty ∧ r.path.take 1 ≠ ['/'] then '/' :: r.path
            else r.path))
         else r.path)
       else (if !r.netloc.isEmpty ∨ (!r.scheme.isEmpty ∧ r.scheme ∈ usesNetloc ∧
            r.path.take 2 ≠ ['/', '/'])
         then '/' :: '/' :: (r.netloc ++
           (if !r.path.isEmpty ∧ r.path.take 1 ≠ ['/'] then '/' :: r.path
            else r.path))
         else r.path)) ++ '?' :: r.query
      else
      (if !r.scheme.isEmpty then r.scheme ++ ':' ::
        (if !r.netloc.isEmpty ∨ (!r.scheme.isEmpty ∧ r.scheme ∈ usesNetloc ∧
            r.path.take 2 ≠ ['/', '/'])
         then '/' :: '/' :: (r.netloc ++
           (if !r.path.isEmpty ∧ r.path.take 1 ≠ ['/'] then '/' :: r.path
            else r.path))
         else r.path)
       else (if !r.netloc.isEmpty ∨ (!r.scheme.isEmpty ∧ r.scheme ∈ usesNetloc ∧
            r.path.take 2 ≠ ['/', '/'])
         then '/' :: '/' :: (r.netloc ++
           (if !r.path.isEmpty ∧ r.path.take 1 ≠ ['/'] then '/' :: r.path
            else r.path))
         else r.path))), x ∈ r.scheme ∨ x = ':' ∨ x = '/' ∨ x ∈ r.netloc ∨
        x ∈ r.path ∨ x = '?' ∨ x ∈ r.query := by
    intro x hx
    split at hx
    · rcases List.mem_append.mp hx with h1 | hx2
      · have hh := hstep3 x h1
        tauto
      · rcases List.mem_cons.mp hx2 with h1 | h2
        · exact Or.inr (Or.inr (Or.inr (Or.inr (Or.inr (Or.inl h1)))))
        · exact Or.inr (Or.inr (Or.inr (Or.inr (Or.inr (Or.inr h2)))))
    · have hh := hstep3 x hx
      tauto
  rcases hfin '#' hm with h | h | h | h | h | h | h
  · exact hs h
  · exact absurd h (by decide)
  · exact absurd h (by decide)
  · exact hn h
  · exact hp h
  · exact absurd h (by decide)
  · exact hq h

theorem urlunparse_no_hash {r : ParseResult} (hs : '#' ∉ r.scheme)
    (hn : '#' ∉ r.netloc) (hp : '#' ∉ r.path) (hpa : '#' ∉ r.params)
    (hq : '#' ∉ r.query) (hf : r.fragment = []) : '#' ∉ urlunparse r := by
  unfold urlunparse
  have hurl : '#' ∉ (if !r.params.isEmpty then r.path ++ ';' :: r.params
      else r.path) := by
    split
    · intro hm
      rcases List.mem_append.mp hm with h1 | h2
      · exact hp h1
      · rcases List.mem_cons.mp h2 with h3 | h4
        · exact absurd h3 (by decide)
        · exact hpa h4
    · exact hp
  exact urlunsplit_no_hash hs hn hurl hq hf

/-- Every successful result of _normalize_url is fragment-free. -/
theorem normalize_url_no_hash_out {x u : Str} (h : normalize_url x = some u) :
    '#' ∉ u := by
  unfold normalize_url urldefragE at h
  split at h
  · rename_i hmem
    cases hp : urlparseE (pyStrip x) with
    | none => rw [hp] at h; simp at h
    | some r =>
      rw [hp] at h
      simp only [Option.map_some', Option.some_inj] at h
      have hcomp := urlparseD_no_hash (by simp) hp
      rw [← h]
      exact urlunparse_no_hash hcomp.1 hcomp.2.1 hcomp.2.2.1 hcomp.2.2.2.1
        hcomp.2.2.2.2 rfl
  · rename_i hmem
    simp only [Option.some_inj] at h
    rw [← h]
    exact hmem

/-! ### Extractor loop invariants (claim C5) -/

theorem mem_setInsert {l : List Str} {v u : Str} (h : u ∈ setInsert l v) :
    u ∈ l ∨ u = v := by
  unfold setInsert at h
  split at h
  · exact Or.inl h
  · rcases List.mem_append.mp h with h1 | h2
    · exact Or.inl h1
    · exact Or.inr (List.mem_singleton.mp h2)

theorem addPage_good {base : ParseResult} {incSub : Bool} {baseUrl : Str}
    {acc acc2 : List Str} {el : Element}
    (h : addPage base incSub baseUrl acc el = some acc2)
    (hacc : ∀ u ∈ acc, GoodUrl base incSub u) :
    ∀ u ∈ acc2, GoodUrl base incSub u := by
  unfold addPage at h
  split at h
  · split at h
    · simp only [Option.some_inj] at h
      exact h ▸ hacc
    · rename_i href hattr
      split at h
      · simp only [Option.some_inj] at h
        exact h ▸ hacc
      · split at h
        · simp at h
        · rename_i u0 hjoin
          split at h
          · simp at h
          · rename_i u hnorm
            split at h
            · simp at h
            · rename_i hb hhttp
              split at h
              · simp only [Option.some_inj] at h
                exact h ▸ hacc
              · rename_i hbt
                split at h
                · simp at h
                · rename_i sd hsd
                  simp only [Option.some_inj] at h
                  subst h
                  split
                  · intro v hv
                    rcases mem_setInsert hv with h1 | rfl
                    · exact hacc v h1
                    · have hb1 : hb = true := by
                        cases hb
                        · simp at hbt
                        · rfl
                      rename_i hsdt
                      exact ⟨hb1 ▸ hhttp, hsdt ▸ hsd,
                        normalize_url_no_hash_out hnorm⟩
                  · exact hacc
  · simp only [Option.some_inj] at h
    exact h ▸ hacc

theorem pagesLoop_good {base : ParseResult} {incSub : Bool} {baseUrl : Str} :
    ∀ {soup : List Element} {acc acc2 : List Str},
      pagesLoop base incSub baseUrl soup acc = some acc2 →
      (∀ u ∈ acc, GoodUrl base incSub u) →
      ∀ u ∈ acc2, GoodUrl base incSub u := by
  intro soup
  induction soup with
  | nil =>
    intro acc acc2 h hacc
    unfold pagesLoop at h
    simp only [Option.some_inj] at h
    exact h ▸ hacc
  | cons el rest ih =>
    intro acc acc2 h hacc
    unfold pagesLoop at h
    split at h
    · simp at h
    · rename_i acc1 hstep
      exact ih h (addPage_good hstep hacc)

theorem addAsset_good {base : ParseResult} {incSub : Bool} {baseUrl : Str}
    {el : Element} {acc acc2 : List Str} {candidate : Str}
    (h : addAsset base incSub baseUrl el acc candidate = some acc2)
    (hacc : ∀ u ∈ acc, GoodUrl base incSub u) :
    ∀ u ∈ acc2, GoodUrl base incSub u := by
  unfold addAsset at h
  split at h
  · simp at h
  · rename_i u0 hjoin
    split at h
    · simp at h
    · rename_i u hnorm
      split at h
      · simp at h
      · rename_i hb hhttp
        split at h
        · simp only [Option.some_inj] at h
          exact h ▸ hacc
        · rename_i hbt
          split at h
          · simp only [Option.some_inj] at h
            exact h ▸ hacc
          · split at h
            · simp at h
            · rename_i sd hsd
              simp only [Option.some_inj] at h
              subst h
              split
              · intro v hv
                rcases mem_setInsert hv with h1 | rfl
                · exact hacc v h1
                · have hb1 : hb = true := by
                    cases hb
                    · simp at hbt
                    · rfl
                  rename_i hsdt
                  exact ⟨hb1 ▸ hhttp, hsdt ▸ hsd,
                    normalize_url_no_hash_out hnorm⟩
              · exact hacc

theorem candLoop_good {base : ParseResult} {incSub : Bool} {baseUrl : Str}
    {el : Element} :
    ∀ {cands : List Str} {acc acc2 : List Str},
      candLoop base incSub baseUrl el cands acc = some acc2 →
      (∀ u ∈ acc, GoodUrl base incSub u) →
      ∀ u ∈ acc2, GoodUrl base incSub u := by
  intro cands
  induction cands with
  | nil =>
    intro acc acc2 h hacc
    unfold candLoop at h
    simp only [Option.some_inj] at h
    exact h ▸ hacc
  | cons c cs ih =>
    intro acc acc2 h hacc
    unfold candLoop at h
    split at h
    · simp at h
    · rename_i acc1 hstep
      exact ih h (addAsset_good hstep hacc)

theorem assetElemLoop_good {base : ParseResult} {incSub : Bool}
    {baseUrl : Str} {ta : Str × Str} :
    ∀ {soup : List Element} {acc acc2 : List Str},
      assetElemLoop base incSub baseUrl ta soup acc = some acc2 →
      (∀ u ∈ acc, GoodUrl base incSub u) →
      ∀ u ∈ acc2, GoodUrl base incSub u := by
  intro soup
  induction soup with
  | nil =>
    intro acc acc2 h hacc
    unfold assetElemLoop at h
    simp only [Option.some_inj] at h
    exact h ▸ hacc
  | cons el rest ih =>
    intro acc acc2 h hacc
    unfold assetElemLoop at h
    cases hstep : assetElemStep base incSub baseUrl ta el acc with
    | none => rw [hstep] at h; simp at h
    | some acc1 =>
      rw [hstep] at h
      refine ih h ?_
      unfold assetElemStep at hstep
      split at hstep
      · split at hstep
        · simp only [Option.some_inj] at hstep
          exact hstep ▸ hacc
        · split at hstep
          · simp only [Option.some_inj] at hstep
            exact hstep ▸ hacc
          · exact candLoop_good hstep hacc
      · simp only [Option.some_inj] at hstep
        exact hstep ▸ hacc

theorem assetsLoop_good {base : ParseResult} {incSub : Bool} {baseUrl : Str}
    {soup : List Element} :
    ∀ {tas : List (Str × Str)} {acc acc2 : List Str},
      assetsLoop base incSub baseUrl soup tas acc = some acc2 →
      (∀ u ∈ acc, GoodUrl base incSub u) →
      ∀ u ∈ acc2, GoodUrl base incSub u := by
  intro tas
  induction tas with
  | nil =>
    intro acc acc2 h hacc
    unfold assetsLoop at h
    simp only [Option.some_inj] at h
    exact h ▸ hacc
  | cons ta tas2 ih =>
    intro acc acc2 h hacc
    unfold assetsLoop at h
    split at h
    · simp at h
    · rename_i acc1 hstep
      exact ih h (assetElemLoop_good hstep hacc)

/-- Claim C5 counterexample: the two produced sets are not disjoint — a URL
referenced both by an anchor and by an img tag is returned as a candidate
page and as a candidate asset. -/
theorem claim_C5_counterexample :
    ∃ pages assets,
      extract_links_and_assets baseExCom false (chars "https://ex.com/")
          soupDup = some (pages, assets) ∧
      ∃ u, u ∈ pages ∧ u ∈ assets := by
  refine ⟨[chars "https://ex.com/x.png"], [chars "https://ex.com/x.png"],
    by decide, chars "https://ex.com/x.png", by decide, by decide⟩

/-- Claim C5 amended: extract_links_and_assets returns two sets of absolute
HTTP(S), in-scope, fragment-free URLs — but the page set and the asset set
need not be disjoint (a URL referenced from both an anchor and an asset tag
appears in both).  The extractor is a pure function of the base URL and the
parsed soup and never touches the crawl state. -/
theorem claim_C5_amended :
    ∀ (base : ParseResult) (incSub : Bool) (baseUrl : Str)
      (soup : List Element) (pages assets : List Str),
      extract_links_and_assets base incSub baseUrl soup =
        some (pages, assets) →
      ∀ u, u ∈ pages ∨ u ∈ assets →
        is_httpE u = some true ∧ same_domainE base incSub u = some true ∧
          '#' ∉ u := by
  intro base incSub baseUrl soup pages assets h u hu
  unfold extract_links_and_assets at h
  split at h
  · simp at h
  · rename_i pages1 hpages
    split at h
    · simp at h
    · rename_i assets1 hassets
      simp only [Option.some_inj, Prod.mk.injEq] at h
      obtain ⟨rfl, rfl⟩ := h
      rcases hu with hm | hm
      · exact pagesLoop_good hpages (by intro v hv; simp at hv) u hm
      · exact assetsLoop_good hassets (by intro v hv; simp at hv) u hm

/-- Witness for the amended claim C5 on the concrete duplicate soup. -/
theorem claim_C5_amended_witness :
    is_httpE (chars "https://ex.com/x.png") = some true ∧
      same_domainE baseExCom false (chars "https://ex.com/x.png") =
        some true ∧ '#' ∉ chars "https://ex.com/x.png" :=
  claim_C5_amended baseExCom false (chars "https://ex.com/") soupDup
    [chars "https://ex.com/x.png"] [chars "https://ex.com/x.png"] (by decide)
    (chars "https://ex.com/x.png") (Or.inl (by decide))

/-! ### Frontier invariants (claims C1 and C9) -/

theorem enqueue_inv {s : CrawlState} {u : Str} (h : CrawlInv s) :
    CrawlInv (enqueue s u) := by
  obtain ⟨hnd, hseen, hpq⟩ := h
  unfold enqueue
  split
  · exact ⟨hnd, hseen, hpq⟩
  · rename_i v hnorm
    split
    · exact ⟨hnd, hseen, hpq⟩
    · rename_i hnin
      refine ⟨?_, ?_, ?_⟩
      · rw [List.nodup_append]
        refine ⟨hnd, List.nodup_singleton _, ?_⟩
        intro x hx hxv
        rw [List.mem_singleton] at hxv
        exact hnin (hxv ▸ hseen x hx)
      · intro x hx
        rcases List.mem_append.mp hx with h1 | h2
        · exact List.mem_append_left _ (hseen x h1)
        · exact List.mem_append_right _ h2
      · simp only
        rw [← List.append_assoc, hpq]

theorem enqueue_processed (s : CrawlState) (u : Str) :
    (enqueue s u).processed = s.processed := by
  unfold enqueue
  split
  · rfl
  · split
    · rfl
    · rfl

theorem enqueue_pageCount (s : CrawlState) (u : Str) :
    (enqueue s u).pageCount = s.pageCount := by
  unfold enqueue
  split
  · rfl
  · split
    · rfl
    · rfl

theorem foldl_preserves {α : Type} {P : CrawlState → Prop}
    (f : CrawlState → α → CrawlState)
    (hf : ∀ s a, P s → P (f s a)) :
    ∀ (l : List α) (s : CrawlState), P s → P (List.foldl f s l) := by
  intro l
  induction l with
  | nil => intro s hs; exact hs
  | cons a as ih => intro s hs; exact ih (f s a) (hf s a hs)

theorem pagesFold_inv (cfg : Config) {s : CrawlState} (pages : List Str)
    (h : CrawlInv s) :
    CrawlInv (pages.foldl (fun s p =>
      if s.crashed then s
      else if cfg.maxPages ≠ 0 ∧ s.pageCount ≥ cfg.maxPages ∧
              p ∉ s.seen then s
      else
        match same_domainE cfg.base cfg.includeSubdomains p with
        | none => crash s
        | some true => enqueue s p
        | some false => s) s) := by
  refine foldl_preserves _ ?_ pages s h
  intro t p ht
  split
  · exact ht
  · split
    · exact ht
    · split
      · exact ht
      · exact enqueue_inv ht
      · exact ht

theorem assetsFold_inv (cfg : Config) {s : CrawlState} (assets : List Str)
    (h : CrawlInv s) :
    CrawlInv (assets.foldl (fun s a =>
      if s.crashed then s
      else
        match same_domainE cfg.base cfg.includeSubdomains a with
        | none => crash s
        | some true => enqueue s a
        | some false => s) s) := by
  refine foldl_preserves _ ?_ assets s h
  intro t a ht
  split
  · exact ht
  · split
    · exact ht
    · exact enqueue_inv ht
    · exact ht

theorem cssFold_inv {s : CrawlState} (urls : List Str) (h : CrawlInv s) :
    CrawlInv (urls.foldl (fun s u =>
      if s.crashed then s else enqueue s u) s) := by
  refine foldl_preserves _ ?_ urls s h
  intro t u ht
  split
  · exact ht
  · exact enqueue_inv ht

theorem processTask_inv (cfg : Config) (env : Str → Option Response)
    {s : CrawlState} (url : Str) (h : CrawlInv s) :
    CrawlInv (processTask cfg env s url) := by
  simp only [processTask]
  split
  · exact h
  · split
    · exact h
    · rename_i resp hresp
      split
      · exact h
      · split
        · exact h
        · rename_i path hpath
          split
          · exact h
          · split
            · split
              · exact h
              · rename_i pages assets hextract
                exact assetsFold_inv cfg assets (pagesFold_inv cfg pages h)
            · split
              · split
                · exact h
                · rename_i urls hcss
                  exact cssFold_inv urls h
              · exact h

theorem crawlStep_inv (cfg : Config) (env : Str → Option Response)
    {s : CrawlState} (h : CrawlInv s) :
    CrawlInv (crawlStep cfg env s) := by
  unfold crawlStep
  split
  · exact h
  · split
    · exact h
    · rename_i url rest hq
      refine processTask_inv cfg env url ?_
      obtain ⟨hnd, hseen, hpq⟩ := h
      refine ⟨hnd, hseen, ?_⟩
      simp only
      rw [List.append_assoc]
      simpa [hq] using hpq

theorem crawlRun_inv (cfg : Config) (env : Str → Option Response) :
    ∀ (fuel : Nat) (s : CrawlState), CrawlInv s →
      CrawlInv (crawlRun cfg env fuel s) := by
  intro fuel
  induction fuel with
  | zero => intro s h; exact h
  | succ n ih =>
    intro s h
    unfold crawlRun
    split
    · exact h
    · exact ih _ (crawlStep_inv cfg env h)

theorem initState_inv : CrawlInv initState := by
  refine ⟨List.nodup_nil, ?_, rfl⟩
  intro u hu
  simp [initState] at hu

theorem count_le_one_of_nodup {l : List Str} (h : l.Nodup) (u : Str) :
    l.count u ≤ 1 := by
  induction l with
  | nil => simp
  | cons x xs ih =>
    rw [List.count_cons]
    rw [List.nodup_cons] at h
    by_cases hxu : x = u
    · subst hxu
      have : xs.count x = 0 := by
        rw [List.count_eq_zero]
        exact h.1
      simp [this]
    · have : (x == u) = false := by
        rw [beq_eq_false_iff_ne]
        exact hxu
      simp [this]
      exact ih h.2

theorem count_eq_one_of_nodup_mem {l : List Str} {u : Str} (h : l.Nodup)
    (hu : u ∈ l) : l.count u = 1 := by
  induction l with
  | nil => simp at hu
  | cons x xs ih =>
    rw [List.count_cons]
    rw [List.nodup_cons] at h
    by_cases hxu : x = u
    · subst hxu
      have : xs.count x = 0 := by
        rw [List.count_eq_zero]
        exact h.1
      simp [this]
    · have hne : (x == u) = false := by
        rw [beq_eq_false_iff_ne]
        exact hxu
      rcases List.mem_cons.mp hu with h1 | h2
      · exact absurd h1.symm hxu
      · simp [hne]
        exact ih h.2 h2

/-- Claim C1: the frontier deduplicates.  The seen set is checked and
inserted before the queue put, so a URL whose normalization is already seen
leaves the state untouched; over any run (any enqueue calls followed by any
number of worker steps against any network), the put history is
duplicate-free, every URL is dequeued and processed at most once, and once
the queue drains each enqueued URL was processed exactly once. -/
theorem claim_C1_frontier_dedup :
    (∀ (s : CrawlState) (u v : Str), normalize_url u = some v →
        v ∈ s.seen → enqueue s u = s) ∧
    (∀ (cfg : Config) (env : Str → Option Response) (urls : List Str)
        (fuel : Nat),
        (crawlRun cfg env fuel (urls.foldl enqueue initState)).puts.Nodup ∧
        (∀ u, (crawlRun cfg env fuel
          (urls.foldl enqueue initState)).processed.count u ≤ 1) ∧
        ((crawlRun cfg env fuel (urls.foldl enqueue initState)).queue = [] →
          ∀ u ∈ (crawlRun cfg env fuel (urls.foldl enqueue initState)).puts,
            (crawlRun cfg env fuel
              (urls.foldl enqueue initState)).processed.count u = 1)) := by
  constructor
  · intro s u v hnorm hmem
    unfold enqueue
    rw [hnorm]
    simp [hmem]
  · intro cfg env urls fuel
    have hinv : CrawlInv (crawlRun cfg env fuel
        (urls.foldl enqueue initState)) :=
      crawlRun_inv cfg env fuel _
        (foldl_preserves enqueue (fun s u h => enqueue_inv h) urls _
          initState_inv)
    obtain ⟨hnd, hseen, hpq⟩ := hinv
    have hndproc : (crawlRun cfg env fuel
        (urls.foldl enqueue initState)).processed.Nodup := by
      rw [← hpq] at hnd
      exact hnd.of_append_left
    refine ⟨hnd, fun u => count_le_one_of_nodup hndproc u, ?_⟩
    intro hqe u hu
    have hproc : (crawlRun cfg env fuel
        (urls.foldl enqueue initState)).processed =
        (crawlRun cfg env fuel (urls.foldl enqueue initState)).puts := by
      rw [← hpq, hqe, List.append_nil]
    rw [hproc]
    exact count_eq_one_of_nodup_mem hnd hu

/-- Witness for claim C1: a URL already in the seen set is not enqueued
again, and a finished concrete crawl processed each scheduled URL once. -/
theorem claim_C1_frontier_dedup_witness :
    (enqueue
        { seen := [chars "https://ex.com/"], queue := [], puts := [],
          processed := [], savedUrls := [], savedPaths := [], pageCount := 0,
          crashed := false } (chars "https://ex.com/#top") =
      { seen := [chars "https://ex.com/"], queue := [], puts := [],
        processed := [], savedUrls := [], savedPaths := [], pageCount := 0,
        crashed := false }) ∧
    (crawlRun defaultCfg scenarioAEnv 10
        ([chars "https://ex.com/"].foldl enqueue initState)).processed.count
      (chars "https://ex.com/") = 1 := by
  constructor
  · exact claim_C1_frontier_dedup.1 _ (chars "https://ex.com/#top")
      (chars "https://ex.com/") (by decide) (by decide)
  · exact (claim_C1_frontier_dedup.2 defaultCfg scenarioAEnv
      [chars "https://ex.com/"] 10).2.2 (by decide) (chars "https://ex.com/")
      (by decide)

/-! ### Page counter lemmas (claim C9) -/

theorem foldl_pageCount {α : Type} (f : CrawlState → α → CrawlState)
    (hf : ∀ s a, (f s a).pageCount = s.pageCount) :
    ∀ (l : List α) (s : CrawlState),
      (List.foldl f s l).pageCount = s.pageCount := by
  intro l
  induction l with
  | nil => intro s; rfl
  | cons a as ih => intro s; rw [List.foldl_cons, ih, hf]

theorem pagesFold_pageCount (cfg : Config) (pages : List Str)
    (s : CrawlState) :
    (pages.foldl (fun s p =>
      if s.crashed then s
      else if cfg.maxPages ≠ 0 ∧ s.pageCount ≥ cfg.maxPages ∧
              p ∉ s.seen then s
      else
        match same_domainE cfg.base cfg.includeSubdomains p with
        | none => crash s
        | some true => enqueue s p
        | some false => s) s).pageCount = s.pageCount := by
  refine foldl_pageCount _ ?_ pages s
  intro t p
  split
  · rfl
  · split
    · rfl
    · split
      · rfl
      · exact enqueue_pageCount t p
      · rfl

theorem assetsFold_pageCount (cfg : Config) (assets : List Str)
    (s : CrawlState) :
    (assets.foldl (fun s a =>
      if s.crashed then s
      else
        match same_domainE cfg.base cfg.includeSubdomains a with
        | none => crash s
        | some true => enqueue s a
        | some false => s) s).pageCount = s.pageCount := by
  refine foldl_pageCount _ ?_ assets s
  intro t a
  split
  · rfl
  · split
    · rfl
    · exact enqueue_pageCount t a
    · rfl

theorem cssFold_pageCount (urls : List Str) (s : CrawlState) :
    (urls.foldl (fun s u =>
      if s.crashed then s else enqueue s u) s).pageCount = s.pageCount := by
  refine foldl_pageCount _ ?_ urls s
  intro t u
  split
  · rfl
  · exact enqueue_pageCount t u

theorem processTask_pageCount (cfg : Config) (env : Str → Option Response)
    (s : CrawlState) (url : Str) :
    (processTask cfg env s url).pageCount = s.pageCount ∨
    ((processTask cfg env s url).pageCount = s.pageCount + 1 ∧
      ∃ resp, env url = some resp ∧ resp.status = 200 ∧
        isHtmlCt (ctOf resp.contentTypeHeader) = true ∧ resp.saveOk = true ∧
        (cfg.maxPages ≠ 0 → s.pageCount < cfg.maxPages)) := by
  simp only [processTask]
  split
  · exact Or.inl rfl
  · split
    · exact Or.inl rfl
    · rename_i resp hresp
      split
      · exact Or.inl rfl
      · rename_i hstatus
        split
        · exact Or.inl rfl
        · rename_i path hpath
          split
          · exact Or.inl rfl
          · rename_i hsave
            split
            · rename_i hhtml
              by_cases hcap : cfg.maxPages ≠ 0 ∧ s.pageCount ≥ cfg.maxPages
              · refine Or.inl ?_
                rw [if_pos hcap]
                split
                · rfl
                · rename_i pages assets hextract
                  rw [assetsFold_pageCount, pagesFold_pageCount]
              · refine Or.inr ⟨?_, resp, hresp, by omega, hhtml, ?_, ?_⟩
                · rw [if_neg hcap]
                  split
                  · rfl
                  · rename_i pages assets hextract
                    rw [assetsFold_pageCount, pagesFold_pageCount]
                · cases hb : resp.saveOk
                  · rw [hb] at hsave; simp at hsave
                  · rfl
                · intro hmz
                  rcases not_and_or.mp hcap with h1 | h2
                  · exact absurd hmz h1
                  · omega
            · split
              · split
                · exact Or.inl rfl
                · rename_i urls hcss
                  exact Or.inl (cssFold_pageCount urls _)
              · exact Or.inl rfl

/-- Claim C9: with a page cap configured the shared page counter never
exceeds max_pages over any run; and a worker step changes the counter only
by incrementing it for a saved (status 200, save succeeded) HTML response
while the counter is still below the cap — never for asset (non-HTML)
responses. -/
theorem claim_C9_page_cap :
    (∀ (cfg : Config) (env : Str → Option Response) (fuel : Nat)
        (s : CrawlState), cfg.maxPages ≠ 0 →
        s.pageCount ≤ cfg.maxPages →
        (crawlRun cfg env fuel s).pageCount ≤ cfg.maxPages) ∧
    (∀ (cfg : Config) (env : Str → Option Response) (s : CrawlState),
        (crawlStep cfg env s).pageCount = s.pageCount ∨
        ((crawlStep cfg env s).pageCount = s.pageCount + 1 ∧
          ∃ url rest resp, s.queue = url :: rest ∧ env url = some resp ∧
            resp.status = 200 ∧
            isHtmlCt (ctOf resp.contentTypeHeader) = true ∧
            resp.saveOk = true ∧
            (cfg.maxPages ≠ 0 → s.pageCount < cfg.maxPages))) := by
  have hstep : ∀ (cfg : Config) (env : Str → Option Response)
      (s : CrawlState),
      (crawlStep cfg env s).pageCount = s.pageCount ∨
      ((crawlStep cfg env s).pageCount = s.pageCount + 1 ∧
        ∃ url rest resp, s.queue = url :: rest ∧ env url = some resp ∧
          resp.status = 200 ∧
          isHtmlCt (ctOf resp.contentTypeHeader) = true ∧
          resp.saveOk = true ∧
          (cfg.maxPages ≠ 0 → s.pageCount < cfg.maxPages)) := by
    intro cfg env s
    unfold crawlStep
    split
    · exact Or.inl rfl
    · split
      · exact Or.inl rfl
      · rename_i url rest hq
        rcases processTask_pageCount cfg env
            { s with queue := rest, processed := s.processed ++ [url] }
            url with h | ⟨h1, resp, h2, h3, h4, h5, h6⟩
        · exact Or.inl h
        · exact Or.inr ⟨h1, url, rest, resp, hq, h2, h3, h4, h5, h6⟩
  constructor
  · intro cfg env fuel
    induction fuel with
    | zero => intro s hmz hle; exact hle
    | succ n ih =>
      intro s hmz hle
      unfold crawlRun
      split
      · exact hle
      · refine ih _ hmz ?_
        rcases hstep cfg env s with h | ⟨h1, _, _, _, _, _, _, _, _, h6⟩
        · rw [h]; exact hle
        · rw [h1]
          have := h6 hmz
          omega
  · exact hstep

/-- Witness for claim C9: a capped concrete crawl (max_pages = 1) never
drives the counter above the cap. -/
theorem claim_C9_page_cap_witness :
    ({ defaultCfg with maxPages := 1 } : Config).maxPages ≠ 0 ∧
    (initState.pageCount ≤ 1) ∧
    (crawlRun { defaultCfg with maxPages := 1 } scenarioAEnv 10
        initState).pageCount ≤ 1 :=
  ⟨by decide, by decide, claim_C9_page_cap.1
    { defaultCfg with maxPages := 1 } scenarioAEnv 10 initState (by decide)
    (by decide)⟩

/-! ### hash8 facts (claim C3) -/

theorem hash8_length (q : Str) : (hash8 q).length = 8 := by
  simp [hash8, sha1Hex]

theorem hexCharOf_mem_hex {k : Nat} (h : k < 16) :
    hexCharOf k ∈ chars "0123456789abcdef" := by
  interval_cases k <;> decide

theorem hash8_hex (q : Str) :
    ∀ c ∈ hash8 q, c ∈ chars "0123456789abcdef" := by
  intro c hc
  unfold hash8 at hc
  have hc2 := List.mem_of_mem_take hc
  unfold sha1Hex at hc2
  rw [List.mem_map] at hc2
  obtain ⟨i, _, hi⟩ := hc2
  rw [← hi]
  exact hexCharOf_mem_hex (Nat.mod_lt _ (by decide))

theorem hash8_no_dot (q : Str) : '.' ∉ hash8 q := by
  intro hm
  have := hash8_hex q '.' hm
  exact absurd this (by decide)

theorem sha1Chunk_lt (h : Nat × Nat × Nat × Nat × Nat) (bytes : List Nat) :
    (sha1Chunk h bytes).1 < 4294967296 ∧
    (sha1Chunk h bytes).2.1 < 4294967296 ∧
    (sha1Chunk h bytes).2.2.1 < 4294967296 ∧
    (sha1Chunk h bytes).2.2.2.1 < 4294967296 ∧
    (sha1Chunk h bytes).2.2.2.2 < 4294967296 := by
  refine ⟨Nat.mod_lt _ (by decide), Nat.mod_lt _ (by decide),
    Nat.mod_lt _ (by decide), Nat.mod_lt _ (by decide),
    Nat.mod_lt _ (by decide)⟩

theorem foldl_sha1Chunk_lt (l : List (List Nat)) :
    ∀ h : Nat × Nat × Nat × Nat × Nat,
      h.1 < 4294967296 → h.2.1 < 4294967296 → h.2.2.1 < 4294967296 →
      h.2.2.2.1 < 4294967296 → h.2.2.2.2 < 4294967296 →
      (l.foldl sha1Chunk h).1 < 4294967296 ∧
      (l.foldl sha1Chunk h).2.1 < 4294967296 ∧
      (l.foldl sha1Chunk h).2.2.1 < 4294967296 ∧
      (l.foldl sha1Chunk h).2.2.2.1 < 4294967296 ∧
      (l.foldl sha1Chunk h).2.2.2.2 < 4294967296 := by
  induction l with
  | nil => intro h h1 h2 h3 h4 h5; exact ⟨h1, h2, h3, h4, h5⟩
  | cons b bs ih =>
    intro h h1 h2 h3 h4 h5
    rw [List.foldl_cons]
    have hc := sha1Chunk_lt h b
    exact ih _ hc.1 hc.2.1 hc.2.2.1 hc.2.2.2.1 hc.2.2.2.2

theorem sha1Nat_lt (msg : List Nat) :
    sha1Nat msg < 1461501637330902918203684832716283019655932542976 := by
  simp only [sha1Nat]
  have hb := foldl_sha1Chunk_lt
    (chunk64 ((sha1Pad msg).length / 64 + 1) (sha1Pad msg))
    (0x67452301, 0xEFCDAB89, 0x98BADCFE, 0x10325476, 0xC3D2E1F0)
    (by decide) (by decide) (by decide) (by decide) (by decide)
  obtain ⟨h1, h2, h3, h4, h5⟩ := hb
  omega

theorem hash8Nat_lt (s : Str) : hash8Nat s < 4294967296 := by
  unfold hash8Nat
  rw [Nat.shiftRight_eq_div_pow]
  have := sha1Nat_lt (utf8Encode s)
  omega

theorem hash8_eq_hexOf8 (q : Str) : hash8 q = hexOf8 (hash8Nat q) := by
  unfold hash8 sha1Hex hexOf8 hash8Nat
  rw [← List.map_take, List.take_range]
  refine List.map_congr_left ?_
  intro i hi
  rw [List.mem_range] at hi
  have harith : 4 * (39 - i) = 128 + 4 * (7 - i) := by omega
  rw [harith, Nat.shiftRight_add]

theorem hash8_eq_of_hash8Nat_eq {q₁ q₂ : Str}
    (h : hash8Nat q₁ = hash8Nat q₂) : hash8 q₁ = hash8 q₂ := by
  rw [hash8_eq_hexOf8, hash8_eq_hexOf8, h]

theorem hash8Nat_eq_of_fin_eq {q₁ q₂ : Str}
    (h : hash8Fin q₁ = hash8Fin q₂) : hash8Nat q₁ = hash8Nat q₂ := by
  have hv := congrArg Fin.val h
  simp only [hash8Fin] at hv
  rwa [Nat.mod_eq_of_lt (hash8Nat_lt q₁), Nat.mod_eq_of_lt (hash8Nat_lt q₂)]
    at hv

/-! ### Parsing the scenario-B style URL with an arbitrary query (claim C3) -/

theorem takeWhile_append_cons_neg {p : Char → Bool} {c : Char} (l r : Str)
    (hl : ∀ y ∈ l, p y = true) (hc : p c = false) :
    (l ++ c :: r).takeWhile p = l := by
  induction l with
  | nil =>
    rw [List.nil_append, List.takeWhile_cons, hc]
    rw [if_neg Bool.false_ne_true]
  | cons x xs ih =>
    have hx := hl x (List.mem_cons_self x xs)
    rw [List.cons_append, List.takeWhile_cons, hx, if_pos rfl,
      ih fun y hy => hl y (List.mem_cons_of_mem x hy)]

theorem urlparseE_styleCss (n : Nat) :
    urlparseE (chars "https://ex.com/style.css?" ++ List.replicate n 'a') =
      some ⟨chars "https", chars "ex.com", chars "/style.css", [],
        List.replicate n 'a', []⟩ := by
  have hRa : ∀ c ∈ List.replicate n 'a', c = 'a' :=
    fun c hc => List.eq_of_mem_replicate hc
  have hdrop :
      (chars "https://ex.com/style.css?" ++
          List.replicate n 'a').dropWhile isC0OrSpace =
        chars "https://ex.com/style.css?" ++ List.replicate n 'a' := by
    rw [show chars "https://ex.com/style.css?" ++ List.replicate n 'a' =
          'h' :: (chars "ttps://ex.com/style.css?" ++ List.replicate n 'a')
        from rfl,
      List.dropWhile_cons_of_neg (by decide)]
  have hclean :
      removeUnsafeBytes
          (chars "https://ex.com/style.css?" ++ List.replicate n 'a') =
        chars "https://ex.com/style.css?" ++ List.replicate n 'a' := by
    have h2 : List.filter
        (fun c => !(decide (c = '\t') || decide (c = '\r') || decide (c = '\n')))
        (List.replicate n 'a') = List.replicate n 'a' :=
      List.filter_eq_self.mpr fun c hc => by rw [hRa c hc]; decide
    have h1 : List.filter
        (fun c => !(decide (c = '\t') || decide (c = '\r') || decide (c = '\n')))
        (chars "https://ex.com/style.css?") = chars "https://ex.com/style.css?" := by
      decide
    unfold removeUnsafeBytes
    rw [List.filter_append, h1, h2]
  have hsp : splitFirstChar ':' (chars "https://ex.com/style.css?") =
      some (chars "https", chars "//ex.com/style.css?") := by decide
  have hscheme :
      schemeSplitFn []
          (chars "https://ex.com/style.css?" ++ List.replicate n 'a') =
        (chars "https", chars "//ex.com/style.css?" ++ List.replicate n 'a') := by
    simp only [schemeSplitFn, splitFirstChar_append_some hsp]
    rw [if_pos (by decide : schemeOk (chars "https") = true)]
    rfl
  have hdec2 : chars "ex.com/style.css?" ++ List.replicate n 'a' =
      chars "ex.com" ++ '/' :: (chars "style.css?" ++ List.replicate n 'a') :=
    rfl
  have htake : (chars "ex.com/style.css?" ++ List.replicate n 'a').takeWhile
        (fun c => !netlocDelim c) = chars "ex.com" := by
    rw [hdec2]
    exact takeWhile_append_cons_neg _ _ (by decide) (by decide)
  have hdrop2 : (chars "ex.com/style.css?" ++ List.replicate n 'a').dropWhile
        (fun c => !netlocDelim c) =
      chars "/style.css?" ++ List.replicate n 'a' := by
    rw [hdec2, dropWhile_append_cons_neg _ _ (by decide)]
    rfl
  have hsn : splitnetloc2
        ((chars "//ex.com/style.css?" ++ List.replicate n 'a').drop 2) =
      (chars "ex.com", chars "/style.css?" ++ List.replicate n 'a') := by
    have hd2 : (chars "//ex.com/style.css?" ++
          List.replicate n 'a').drop 2 =
        chars "ex.com/style.css?" ++ List.replicate n 'a' := rfl
    unfold splitnetloc2
    rw [hd2, htake, hdrop2]
  have hnetloc :
      netlocSplitFn (chars "//ex.com/style.css?" ++ List.replicate n 'a') =
        some (chars "ex.com", chars "/style.css?" ++ List.replicate n 'a') := by
    simp only [netlocSplitFn]
    rw [if_pos (show (chars "//ex.com/style.css?" ++
        List.replicate n 'a').take 2 = ['/', '/'] from rfl)]
    simp only [hsn]
    unfold netlocBracketCheck
    rw [if_neg (by decide), if_neg (by decide)]
  have hnoHash : '#' ∉ chars "/style.css?" ++ List.replicate n 'a' := by
    rw [List.mem_append]
    rintro (h1 | h2)
    · exact absurd h1 (by decide)
    · have ha := hRa _ h2
      exact absurd ha (by decide)
  have hhash : tailSplitFn '#' (chars "/style.css?" ++ List.replicate n 'a') =
      (chars "/style.css?" ++ List.replicate n 'a', []) := by
    simp only [tailSplitFn, splitFirstChar_eq_none_iff.mpr hnoHash]
  have hquery : tailSplitFn '?' (chars "/style.css?" ++ List.replicate n 'a') =
      (chars "/style.css", List.replicate n 'a') := by
    have hd : chars "/style.css?" ++ List.replicate n 'a' =
        chars "/style.css" ++ '?' :: List.replicate n 'a' := rfl
    have hnm : '?' ∉ chars "/style.css" := by decide
    simp only [tailSplitFn, hd, splitFirstChar_of_decomp hnm]
  have hsplit : urlsplitD
        (chars "https://ex.com/style.css?" ++ List.replicate n 'a') [] =
      some ⟨chars "https", chars "ex.com", chars "/style.css",
        List.replicate n 'a', []⟩ := by
    unfold urlsplitD
    rw [show removeUnsafeBytes (pyStrip []) = ([] : Str) from rfl, hdrop, hclean]
    simp only [urlsplitCore, hscheme, hnetloc, hhash, hquery]
  unfold urlparseE urlparseD
  rw [hsplit]
  simp only [Option.map_some']
  rw [if_neg (by decide :
    ¬(chars "https" ∈ usesParams ∧ ';' ∈ chars "/style.css"))]

/-! ### url_to_local_path with a nonempty query (claim C3) -/

theorem mapPathQuery_pos (l : List Str) (q : Str) (hq : q.isEmpty = false) :
    mapPathQuery l q =
      l.dropLast ++
        [(if (pathStem l).isEmpty then chars "file" else pathStem l) ++
          chars "__q=" ++ hash8 q ++ (pathSuffixes l).flatten] := by
  unfold mapPathQuery
  rw [hq]
  rfl

theorem u2lp_shape (outDir : List Str) (u ct : Str) (r : ParseResult)
    (h : urlparseE u = some r) (hq : r.query.isEmpty = false) :
    ∃ t, (t = [] ∨ t = chars ".html") ∧
      url_to_local_path outDir u ct =
        some ((mapPathBase outDir r.netloc r.path ct).dropLast ++
          [(if (pathStem (mapPathBase outDir r.netloc r.path ct)).isEmpty
              then chars "file"
              else pathStem (mapPathBase outDir r.netloc r.path ct)) ++
            chars "__q=" ++ hash8 r.query ++
            (pathSuffixes (mapPathBase outDir r.netloc r.path ct)).flatten ++
            t]) := by
  have hmq := mapPathQuery_pos (mapPathBase outDir r.netloc r.path ct) r.query hq
  have hNne :
      (if (pathStem (mapPathBase outDir r.netloc r.path ct)).isEmpty
          then chars "file"
          else pathStem (mapPathBase outDir r.netloc r.path ct)) ++
        chars "__q=" ++ hash8 r.query ++
        (pathSuffixes (mapPathBase outDir r.netloc r.path ct)).flatten ≠ [] := by
    intro he
    have hlen := congrArg List.length he
    rw [List.length_append, List.length_append, List.length_append,
      List.length_nil] at hlen
    have h4 : (chars "__q=").length = 4 := rfl
    omega
  simp only [url_to_local_path, h]
  rw [hmq]
  by_cases hc :
      (pathSuffix ((mapPathBase outDir r.netloc r.path ct).dropLast ++
        [(if (pathStem (mapPathBase outDir r.netloc r.path ct)).isEmpty
            then chars "file"
            else pathStem (mapPathBase outDir r.netloc r.path ct)) ++
          chars "__q=" ++ hash8 r.query ++
          (pathSuffixes (mapPathBase outDir r.netloc r.path ct)).flatten])).isEmpty
        = true ∧
      (!ct.isEmpty) = true ∧ isHtmlCt ct = true
  · refine ⟨chars ".html", Or.inr rfl, ?_⟩
    rw [if_pos hc]
    simp only [withSuffixE]
    rw [show pathName ((mapPathBase outDir r.netloc r.path ct).dropLast ++
        [(if (pathStem (mapPathBase outDir r.netloc r.path ct)).isEmpty
            then chars "file"
            else pathStem (mapPathBase outDir r.netloc r.path ct)) ++
          chars "__q=" ++ hash8 r.query ++
          (pathSuffixes (mapPathBase outDir r.netloc r.path ct)).flatten]) =
        (if (pathStem (mapPathBase outDir r.netloc r.path ct)).isEmpty
            then chars "file"
            else pathStem (mapPathBase outDir r.netloc r.path ct)) ++
          chars "__q=" ++ hash8 r.query ++
          (pathSuffixes (mapPathBase outDir r.netloc r.path ct)).flatten
      from List.getLastD_concat _ _ _]
    rw [if_neg (fun hempty => hNne (List.isEmpty_iff.mp hempty))]
    rw [List.isEmpty_iff.mp hc.1]
    rw [if_pos (show List.isEmpty ([] : Str) = true from rfl)]
    rw [List.dropLast_concat]
  · refine ⟨[], Or.inl rfl, ?_⟩
    rw [if_neg hc, List.append_nil]

theorem append_middle_cancel {s q f t₁ t₂ h₁ h₂ : Str}
    (hl : h₁.length = h₂.length)
    (he : s ++ q ++ h₁ ++ f ++ t₁ = s ++ q ++ h₂ ++ f ++ t₂) : h₁ = h₂ := by
  simp only [List.append_assoc] at he
  have h3 := List.append_cancel_left (List.append_cancel_left he)
  exact (List.append_inj h3 hl).1

theorem u2lp_styleCss (n : Nat) :
    url_to_local_path [chars "out"]
        (chars "https://ex.com/style.css?" ++ List.replicate (n + 1) 'a')
        (chars "text/css") =
      some [chars "out", chars "ex.com",
        chars "style" ++ chars "__q=" ++
          hash8 (List.replicate (n + 1) 'a') ++ chars ".css"] := by
  simp only [url_to_local_path, urlparseE_styleCss (n + 1)]
  rw [show mapPathBase [chars "out"] (chars "ex.com") (chars "/style.css")
        (chars "text/css") = [chars "out", chars "ex.com", chars "style.css"]
      from by decide]
  rw [mapPathQuery_pos [chars "out", chars "ex.com", chars "style.css"]
    (List.replicate (n + 1) 'a') rfl]
  rw [show (if (pathStem [chars "out", chars "ex.com",
          chars "style.css"]).isEmpty then chars "file"
        else pathStem [chars "out", chars "ex.com", chars "style.css"]) =
        chars "style"
      from by decide]
  rw [show (pathSuffixes [chars "out", chars "ex.com",
        chars "style.css"]).flatten = chars ".css" from by decide]
  rw [if_neg fun hcond => absurd hcond.2.2
    (by decide : ¬isHtmlCt (chars "text/css") = true)]
  rfl

/-- C3 (counterexample): the URL-to-local-path mapping is not
collision-resistant for arbitrary distinct query strings on the same path:
since the filename only carries the first 8 hex characters of the SHA-1
digest, the pigeonhole principle yields two distinct nonempty query strings
over the same netloc and path whose mapped local paths coincide. -/
theorem claim_C3_counterexample :
    ∃ q₁ q₂ : Str, q₁ ≠ q₂ ∧ q₁ ≠ [] ∧ q₂ ≠ [] ∧
      (∃ r₁ r₂ : ParseResult,
        urlparseE (chars "https://ex.com/style.css?" ++ q₁) = some r₁ ∧
        urlparseE (chars "https://ex.com/style.css?" ++ q₂) = some r₂ ∧
        r₁.netloc = r₂.netloc ∧ r₁.path = r₂.path ∧
        r₁.query = q₁ ∧ r₂.query = q₂) ∧
      url_to_local_path [chars "out"]
          (chars "https://ex.com/style.css?" ++ q₁) (chars "text/css") =
        url_to_local_path [chars "out"]
          (chars "https://ex.com/style.css?" ++ q₂) (chars "text/css") := by
  obtain ⟨m, k, hmk, hg⟩ := Finite.exists_ne_map_eq_of_infinite
    (fun j : Nat => hash8Fin (List.replicate (j + 1) 'a'))
  have hg2 : hash8Fin (List.replicate (m + 1) 'a') =
      hash8Fin (List.replicate (k + 1) 'a') := hg
  have hq : hash8 (List.replicate (m + 1) 'a') =
      hash8 (List.replicate (k + 1) 'a') :=
    hash8_eq_of_hash8Nat_eq (hash8Nat_eq_of_fin_eq hg2)
  refine ⟨List.replicate (m + 1) 'a', List.replicate (k + 1) 'a',
    ?_, ?_, ?_, ?_, ?_⟩
  · intro he
    have hlen := congrArg List.length he
    rw [List.length_replicate, List.length_replicate] at hlen
    omega
  · intro he
    have hlen := congrArg List.length he
    rw [List.length_replicate, List.length_nil] at hlen
    omega
  · intro he
    have hlen := congrArg List.length he
    rw [List.length_replicate, List.length_nil] at hlen
    omega
  · exact ⟨_, _, urlparseE_styleCss (m + 1), urlparseE_styleCss (k + 1),
      rfl, rfl, rfl, rfl⟩
  · rw [u2lp_styleCss m, u2lp_styleCss k, hq]

/-- C3: the URL-to-local-path mapping is deterministic (a pure function of
its inputs), and for two URLs that parse with the same netloc and path and
carry nonempty query strings with distinct 8-hex truncated SHA-1 digests,
the mapped local paths are distinct, live in the same directory, and carry
filenames of the form stem__q=hash suffix - with stem "file" when the base
filename has no stem, an 8-character lowercase-hex hash, and possibly a
trailing .html appended for suffixless HTML responses. -/
theorem claim_C3_amended (outDir : List Str) (u₁ u₂ ct : Str)
    (r₁ r₂ : ParseResult)
    (h₁ : urlparseE u₁ = some r₁) (h₂ : urlparseE u₂ = some r₂)
    (hnl : r₁.netloc = r₂.netloc) (hp : r₁.path = r₂.path)
    (hq₁ : r₁.query ≠ []) (hq₂ : r₂.query ≠ [])
    (hh : hash8 r₁.query ≠ hash8 r₂.query) :
    url_to_local_path outDir u₁ ct = url_to_local_path outDir u₁ ct ∧
    (hash8 r₁.query).length = 8 ∧
    (∀ c ∈ hash8 r₁.query, c ∈ chars "0123456789abcdef") ∧
    ∃ (dir : List Str) (stem sfx t₁ t₂ : Str),
      url_to_local_path outDir u₁ ct =
        some (dir ++ [stem ++ chars "__q=" ++ hash8 r₁.query ++ sfx ++ t₁]) ∧
      url_to_local_path outDir u₂ ct =
        some (dir ++ [stem ++ chars "__q=" ++ hash8 r₂.query ++ sfx ++ t₂]) ∧
      (t₁ = [] ∨ t₁ = chars ".html") ∧
      (t₂ = [] ∨ t₂ = chars ".html") ∧
      (stem = chars "file" ∨
        stem = pathStem (mapPathBase outDir r₁.netloc r₁.path ct)) ∧
      url_to_local_path outDir u₁ ct ≠ url_to_local_path outDir u₂ ct := by
  have hqe₁ : r₁.query.isEmpty = false := by
    cases hql : r₁.query with
    | nil => exact absurd hql hq₁
    | cons a l => rfl
  have hqe₂ : r₂.query.isEmpty = false := by
    cases hql : r₂.query with
    | nil => exact absurd hql hq₂
    | cons a l => rfl
  obtain ⟨t₁, ht₁, e₁⟩ := u2lp_shape outDir u₁ ct r₁ h₁ hqe₁
  obtain ⟨t₂, ht₂, e₂⟩ := u2lp_shape outDir u₂ ct r₂ h₂ hqe₂
  rw [← hnl, ← hp] at e₂
  refine ⟨rfl, hash8_length _, hash8_hex _,
    (mapPathBase outDir r₁.netloc r₁.path ct).dropLast,
    (if (pathStem (mapPathBase outDir r₁.netloc r₁.path ct)).isEmpty
        then chars "file"
        else pathStem (mapPathBase outDir r₁.netloc r₁.path ct)),
    (pathSuffixes (mapPathBase outDir r₁.netloc r₁.path ct)).flatten,
    t₁, t₂, e₁, e₂, ht₁, ht₂, ?_, ?_⟩
  · by_cases hs :
        (pathStem (mapPathBase outDir r₁.netloc r₁.path ct)).isEmpty = true
    · exact Or.inl (if_pos hs)
    · exact Or.inr (if_neg hs)
  · rw [e₁, e₂]
    intro he
    rw [Option.some.injEq] at he
    have he2 := List.append_cancel_left he
    injection he2 with he3 hnil
    exact hh (append_middle_cancel
      (by rw [hash8_length, hash8_length]) he3)

theorem claim_C3_amended_witness :
    url_to_local_path [chars "out"] (chars "https://ex.com/style.css?v=1")
        (chars "text/css") ≠
      url_to_local_path [chars "out"] (chars "https://ex.com/style.css?v=2")
        (chars "text/css") := by
  have h := claim_C3_amended [chars "out"]
    (chars "https://ex.com/style.css?v=1")
    (chars "https://ex.com/style.css?v=2") (chars "text/css")
    ⟨chars "https", chars "ex.com", chars "/style.css", [], chars "v=1", []⟩
    ⟨chars "https", chars "ex.com", chars "/style.css", [], chars "v=2", []⟩
    (by decide) (by decide) rfl rfl (by decide) (by decide) (by decide)
  obtain ⟨-, -, -, -, -, -, -, -, -, -, hne⟩ := h.2.2.2
  exact hne

end SiteScraper
